import Mathlib

/-!
Shallow embedding of the pEOS token contract
(`src/contract/src/token.cpp`, `src/contract/include/token.hpp`).

Modelling conventions:
* `eosio::name` values, public keys and signatures are `Nat`.
* `asset` amounts are unbounded `Int`, with the library's explicit range
  checks (`|amount| <= 2^62 - 1`) reproduced where `eosiolib` performs them
  (`asset::operator+=`, `operator-=` also check symbol equality).
* C++ `double` values (the dividend fractions) are modelled as exact
  rationals; conversions `int64 <-> double` keep the C++
  truncation-toward-zero (`ratTrunc`).
* Each `eosio::multi_index` table is an association list; `tblEmplace`
  reproduces the primary-key uniqueness abort, `tblModify` rewrites the row
  that `tblFind` returns, `tblErase` removes it.
* `require_auth`/`require_recipient` are external collaborators and always
  succeed; `is_account`, `now()`, `has_auth` and signature recovery
  (`assert_recover_key` together with the digest chain) are supplied by an
  `Env` record.
* `SEND_INLINE_ACTION` and nested calls are modelled as synchronous calls
  inside the same all-or-nothing transaction (`Except Err`): a failure
  anywhere discards the whole operation, as the host's transaction boundary
  does.
-/

namespace Token

/-- Account names (`eosio::name::value`). -/
abbrev Name := Nat

/-- Error kinds, one per distinct `check`/assert in the code, named after
the spec's taxonomy (section 7). -/
inductive Err where
  | InvalidSymbol
  | InvalidAmount
  | SymbolPrecisionMismatch
  | SupplyExceeded
  | InsufficientFunds
  | RecordNotFound
  | AlreadyExists
  | NotEmpty
  | MemoTooLong
  | SelfTransfer
  | NotAnAccount
  | Overflow
  | UnknownNote
  | BadSignature
  | InputsInsufficient
  | BudgetExceeded
  | IssuanceClosed
  | DividendsNotRealized
  | RefundNotFound
  | RefundLocked
deriving DecidableEq

/-- Tail check of `symbol_code::is_valid` (the inner do-while): every
remaining byte must be zero. -/
def allZeroTail : Nat → Nat → Bool
  | 0, _ => true
  | fuel + 1, v => decide (v % 256 = 0) && allZeroTail fuel (v / 256)

/-- Main loop of `eosiolib` `symbol_code::is_valid` over the raw integer:
up to seven byte-characters, each in `A`..`Z`, zero padding only at the
top. -/
def symCodeValidLoop : Nat → Nat → Bool
  | 0, _ => true
  | fuel + 1, v =>
    let c := v % 256
    if 65 ≤ c ∧ c ≤ 90 then
      let v' := v / 256
      if v' % 256 = 0 then allZeroTail fuel (v' / 256)
      else symCodeValidLoop fuel v'
    else false

/-- `eosio::symbol_code::is_valid`. -/
def symCodeValid (c : Nat) : Bool := symCodeValidLoop 7 c

/-- An `eosio::symbol`: (code, precision) pair. -/
structure Sym where
  code : Nat
  prec : Nat
deriving DecidableEq

/-- `symbol::is_valid` only checks the code. -/
def Sym.isValid (s : Sym) : Bool := symCodeValid s.code

/-- `eosio::asset::max_amount = 2^62 - 1`. -/
def maxAmount : Int := 4611686018427387903

/-- An `eosio::asset`. -/
structure Asset where
  amount : Int
  sym : Sym
deriving DecidableEq

/-- `asset::is_valid`: amount within range and valid symbol. -/
def Asset.isValid (a : Asset) : Bool :=
  decide (-maxAmount ≤ a.amount) && decide (a.amount ≤ maxAmount) && a.sym.isValid

/-- `asset` addition (`operator+=`): symbol equality and range checks. -/
def addA (a b : Asset) : Except Err Asset :=
  if a.sym ≠ b.sym then .error .SymbolPrecisionMismatch
  else if -maxAmount ≤ a.amount + b.amount ∧ a.amount + b.amount ≤ maxAmount then
    .ok ⟨a.amount + b.amount, a.sym⟩
  else .error .Overflow

/-- `asset` subtraction (`operator-=`): symbol equality and range checks. -/
def subA (a b : Asset) : Except Err Asset :=
  if a.sym ≠ b.sym then .error .SymbolPrecisionMismatch
  else if -maxAmount ≤ a.amount - b.amount ∧ a.amount - b.amount ≤ maxAmount then
    .ok ⟨a.amount - b.amount, a.sym⟩
  else .error .Overflow

/-- Truncation toward zero of a rational, the C++ `double → int64_t`
conversion. -/
def ratTrunc (q : ℚ) : Int :=
  if 0 ≤ q.num then q.num / (q.den : Int) else -((-q.num) / (q.den : Int))

/-- A `multi_index` table: association list from primary key to row. -/
abbrev Tbl (K V : Type) := List (K × V)

/-- `multi_index::find` (first matching key). -/
def tblFind {K V : Type} [DecidableEq K] (t : Tbl K V) (k : K) : Option V :=
  match t with
  | [] => none
  | (k', v) :: r => if k' = k then some v else tblFind r k

/-- `multi_index::emplace`: aborts when the primary key already exists. -/
def tblEmplace {K V : Type} [DecidableEq K] (t : Tbl K V) (k : K) (v : V) :
    Except Err (Tbl K V) :=
  match tblFind t k with
  | some _ => .error .AlreadyExists
  | none => .ok ((k, v) :: t)

/-- `multi_index::modify`: rewrites the row `find` returns. -/
def tblModify {K V : Type} [DecidableEq K] (t : Tbl K V) (k : K) (f : V → V) :
    Tbl K V :=
  match t with
  | [] => []
  | (k', v) :: r => if k' = k then (k', f v) :: r else (k', v) :: tblModify r k f

/-- `multi_index::erase`: removes the row `find` returns. -/
def tblErase {K V : Type} [DecidableEq K] (t : Tbl K V) (k : K) : Tbl K V :=
  match t with
  | [] => []
  | (k', v) :: r => if k' = k then r else (k', v) :: tblErase r k

/-- An `accounts` table row. -/
structure AccountRow where
  balance : Asset
  claimed : Bool
deriving DecidableEq

/-- A `stat` table row. -/
structure CurrencyStats where
  supply : Asset
  max_supply : Asset
  issuer : Name
deriving DecidableEq

/-- A `teamvest` table row (the account is the key). -/
structure VestRow where
  issued : Asset
deriving DecidableEq

/-- A `utxos` table row (the id is the key). -/
structure UtxoRow where
  pk : Nat
  amount : Asset
deriving DecidableEq

/-- A `staked` table row. -/
structure StakeRow where
  quantity : Asset
  lastDividendsFrac : ℚ
deriving DecidableEq

/-- A `dividends` table row. -/
structure DividendRow where
  totalStaked : Asset
  totalDividends : Asset
  totalUnclaimedDividends : Asset
  totalDividendFrac : ℚ
deriving DecidableEq

/-- A `refunds` table row (the owner is the key). -/
structure RefundRow where
  request_time : Nat
  amount : Asset
deriving DecidableEq

/-- The persistent contract state: one field per `multi_index` table.
`accounts` and `staked` are scoped by owner in the C++, modelled by a
(owner, symbol-code) key; `utxoglobals` has a single row with key 0,
modelled by an `Option`. -/
structure State where
  stats : Tbl Nat CurrencyStats
  accounts : Tbl (Name × Nat) AccountRow
  vesting : Tbl Name VestRow
  utxos : Tbl Nat UtxoRow
  utxoGlobal : Option Nat
  stakes : Tbl (Name × Nat) StakeRow
  dividends : Tbl Nat DividendRow
  refunds : Tbl Name RefundRow
deriving DecidableEq

/-- The empty chain state (fresh deployment, no table rows). -/
def initState : State := ⟨[], [], [], [], none, [], [], []⟩

/-- Raw code of the symbol `PEOS` (bytes `P`, `E`, `O`, `S`). -/
def PEOS_CODE : Nat := 1397704016

/-- `PEOS_SYMBOL = symbol(symbol_code("PEOS"), 4)`. -/
def PEOS_SYMBOL : Sym := ⟨PEOS_CODE, 4⟩

/-- `"thepeostoken"`, which is also the account the contract runs on. -/
def PEOS_CONTRACT_ACCOUNT : Name := 1

/-- `_self`: the deployment account of the contract. -/
def SELF : Name := PEOS_CONTRACT_ACCOUNT

/-- `"peosmarketin"`. -/
def PEOS_MARKETING_ACCOUNT : Name := 2

/-- `"peosteamfund"`. -/
def PEOS_TEAMFUND_ACCOUNT : Name := 3

/-- `seconds_per_day = 24 * 3600`. -/
def seconds_per_day : Nat := 86400

/-- `refund_delay = 3 * seconds_per_day`. -/
def refund_delay : Nat := 3 * seconds_per_day

/-- Marketing/operations budget: 50 million PEOS (4 decimals). -/
def marketingCap : Int := 500000000000

/-- Team-fund vesting epoch: 2019-02-25. -/
def teamfundBase : Nat := 1551096000

/-- Team-fund total budget: 200 million PEOS (4 decimals). -/
def teamfundCap : Int := 2000000000000

/-- Airdrop-remainder budget (4 decimals). -/
def airdropCap : Int := 5962241696

/-- The team-fund linear ceiling
`int64_t(max_claimable * double(now() - base_time) / (400 * seconds_per_day))`. -/
def teamClaimable (now : Nat) : Int :=
  ratTrunc ((teamfundCap : ℚ) * ((now : ℚ) - (teamfundBase : ℚ)) /
    ((400 * seconds_per_day : Nat) : ℚ))

/-- Membership in the set of three privileged vesting accounts. -/
def isPrivileged (account : Name) : Bool :=
  account == PEOS_MARKETING_ACCOUNT || account == PEOS_TEAMFUND_ACCOUNT ||
    account == PEOS_CONTRACT_ACCOUNT

/-- A `transferutxo` input `(note id, signature)`. -/
structure Input where
  id : Nat
  sig : Nat
deriving DecidableEq

/-- A `transferutxo` output: route to `account` when `account ≠ 0`, else
create a note bound to `pk`. -/
structure Output where
  pk : Nat
  account : Name
  quantity : Asset
deriving DecidableEq

/-- External collaborators: `is_account`, `now()`, `has_auth(to)` for the
top-level transfer action, and the signature check (`assert_recover_key`
against the digest binding a note id to the serialized output set). -/
structure Env where
  isAcct : Name → Bool
  now : Nat
  hasAuthTo : Bool
  sigOk : Nat → List Output → Nat → Nat → Bool

/-- `token::sub_balance`. -/
def sub_balance (owner : Name) (value : Asset) (s : State) : Except Err State :=
  match tblFind s.accounts (owner, value.sym.code) with
  | none => .error .RecordNotFound
  | some frm =>
    if frm.balance.amount < value.amount then .error .InsufficientFunds
    else
      match subA frm.balance value with
      | .error e => .error e
      | .ok b =>
        let acnts := tblModify s.accounts (owner, value.sym.code) (fun _ => ⟨b, true⟩)
        .ok { s with accounts := acnts }

/-- `token::add_balance` (the RAM payer is resource accounting, dropped). -/
def add_balance (owner : Name) (value : Asset) (claimed : Bool) (s : State) :
    Except Err State :=
  match tblFind s.accounts (owner, value.sym.code) with
  | none =>
    match tblEmplace s.accounts (owner, value.sym.code) ⟨value, claimed⟩ with
    | .error e => .error e
    | .ok t => .ok { s with accounts := t }
  | some row =>
    match addA row.balance value with
    | .error e => .error e
    | .ok b =>
      let acnts := tblModify s.accounts (owner, value.sym.code) (fun r => ⟨b, r.claimed⟩)
      .ok { s with accounts := acnts }

/-- `token::do_claim` (the payer argument only carries authorization and
RAM payment, both external). -/
def do_claim (owner : Name) (symC : Nat) (s : State) : Except Err State :=
  if ¬ symCodeValid symC then .error .InvalidSymbol
  else
    match tblFind s.accounts (owner, symC) with
    | none => .error .RecordNotFound
    | some row =>
      if row.claimed then .ok s
      else
        match tblFind (tblErase s.accounts (owner, symC)) (owner, symC) with
        | some _ => .error .AlreadyExists
        | none =>
          match tblEmplace (tblErase s.accounts (owner, symC)) (owner, symC)
              ⟨row.balance, true⟩ with
          | .error e => .error e
          | .ok t => .ok { s with accounts := t }

/-- `token::transfer`. `hasAuthTo` models `has_auth(to)`; inline sends pass
`false` (only the sender's permission is carried). -/
def transferOp (env : Env) (frm dst : Name) (quantity : Asset) (memo : String)
    (hasAuthTo : Bool) (s : State) : Except Err State :=
  if frm = dst then .error .SelfTransfer
  else if ¬ env.isAcct dst then .error .NotAnAccount
  else
    match tblFind s.stats quantity.sym.code with
    | none => .error .RecordNotFound
    | some st =>
      if ¬ quantity.isValid then .error .InvalidAmount
      else if quantity.amount ≤ 0 then .error .InvalidAmount
      else if quantity.sym ≠ st.supply.sym then .error .SymbolPrecisionMismatch
      else if memo.length > 256 then .error .MemoTooLong
      else
        match do_claim frm quantity.sym.code s with
        | .error e => .error e
        | .ok s₁ =>
          match sub_balance frm quantity s₁ with
          | .error e => .error e
          | .ok s₂ =>
            match add_balance dst quantity
                (decide ((if hasAuthTo then dst else frm) ≠ st.issuer)) s₂ with
            | .error e => .error e
            | .ok s₃ =>
              if frm ≠ st.issuer then do_claim dst quantity.sym.code s₃ else .ok s₃

/-- `token::create`. -/
def createOp (issuer : Name) (maximum_supply : Asset) (s : State) :
    Except Err State :=
  if ¬ maximum_supply.sym.isValid then .error .InvalidSymbol
  else if ¬ maximum_supply.isValid then .error .InvalidAmount
  else if maximum_supply.amount ≤ 0 then .error .InvalidAmount
  else
    match tblFind s.stats maximum_supply.sym.code with
    | some _ => .error .AlreadyExists
    | none =>
      match tblEmplace s.stats maximum_supply.sym.code
          ⟨⟨0, maximum_supply.sym⟩, maximum_supply, issuer⟩ with
      | .error e => .error e
      | .ok t => .ok { s with stats := t }

/-- `token::update`. -/
def updateOp (issuer : Name) (maximum_supply : Asset) (s : State) :
    Except Err State :=
  if ¬ maximum_supply.sym.isValid then .error .InvalidSymbol
  else if ¬ maximum_supply.isValid then .error .InvalidAmount
  else if maximum_supply.amount ≤ 0 then .error .InvalidAmount
  else
    match tblFind s.stats maximum_supply.sym.code with
    | none => .error .RecordNotFound
    | some st =>
      if ¬ (st.supply.amount ≤ maximum_supply.amount) then .error .SupplyExceeded
      else if maximum_supply.sym ≠ st.supply.sym then .error .SymbolPrecisionMismatch
      else
        let t := tblModify s.stats maximum_supply.sym.code
          (fun r => { r with max_supply := maximum_supply, issuer := issuer })
        .ok { s with stats := t }

/-- Vesting-record update of `token::validate_peos_team_vesting`: for the
three privileged accounts `v.issued += quantity` (creating the record at
`quantity` when absent); otherwise nothing. -/
def vestingUpdate (account : Name) (quantity : Asset) (s : State) :
    Except Err State :=
  if isPrivileged account then
    match tblFind s.vesting account with
    | some v =>
      match addA v.issued quantity with
      | .error e => .error e
      | .ok issued =>
        .ok { s with vesting := tblModify s.vesting account (fun _ => ⟨issued⟩) }
    | none =>
      match tblEmplace s.vesting account ⟨quantity⟩ with
      | .error e => .error e
      | .ok t => .ok { s with vesting := t }
  else .ok s

/-- The `claimed` local of `token::validate_peos_team_vesting`: the
cumulative amount recorded before the current call (0 when the record is
absent or the account is not privileged). -/
def vestingClaimed (account : Name) (s : State) : Int :=
  if isPrivileged account then
    match tblFind s.vesting account with
    | some v => v.issued.amount
    | none => 0
  else 0

/-- `token::validate_peos_team_vesting`. The vesting-record update happens
first (for the three privileged accounts); each ceiling check compares
against the cumulative amount recorded before this call. -/
def validate_peos_team_vesting (now : Nat) (account : Name) (quantity : Asset)
    (s : State) : Except Err State :=
  match vestingUpdate account quantity s with
  | .error e => .error e
  | .ok s₁ =>
    if account = PEOS_MARKETING_ACCOUNT then
      if vestingClaimed account s + quantity.amount ≤ marketingCap then .ok s₁
      else .error .BudgetExceeded
    else if account = PEOS_TEAMFUND_ACCOUNT then
      if vestingClaimed account s + quantity.amount ≤ teamClaimable now then .ok s₁
      else .error .BudgetExceeded
    else if account = PEOS_CONTRACT_ACCOUNT then
      if vestingClaimed account s + quantity.amount ≤ airdropCap then .ok s₁
      else .error .BudgetExceeded
    else .error .IssuanceClosed

/-- `token::issue` up to (not including) the final vesting validation:
checks, supply increment, credit to the issuer, inline transfer to `dst`. -/
def issueCore (env : Env) (dst : Name) (quantity : Asset) (memo : String)
    (s : State) : Except Err State :=
  if ¬ quantity.sym.isValid then .error .InvalidSymbol
  else if memo.length > 256 then .error .MemoTooLong
  else
    match tblFind s.stats quantity.sym.code with
    | none => .error .RecordNotFound
    | some st =>
      if ¬ quantity.isValid then .error .InvalidAmount
      else if quantity.amount ≤ 0 then .error .InvalidAmount
      else if quantity.sym ≠ st.supply.sym then .error .SymbolPrecisionMismatch
      else if ¬ (quantity.amount ≤ st.max_supply.amount - st.supply.amount) then
        .error .SupplyExceeded
      else
        match addA st.supply quantity with
        | .error e => .error e
        | .ok sup =>
          match add_balance st.issuer quantity true
              { s with
                stats := tblModify s.stats quantity.sym.code
                  (fun r => { r with supply := sup }) } with
          | .error e => .error e
          | .ok s₂ =>
            if dst ≠ st.issuer then transferOp env st.issuer dst quantity memo false s₂
            else .ok s₂

/-- `token::issue`. -/
def issueOp (env : Env) (dst : Name) (quantity : Asset) (memo : String)
    (s : State) : Except Err State :=
  match issueCore env dst quantity memo s with
  | .error e => .error e
  | .ok s₁ => validate_peos_team_vesting env.now dst quantity s₁

/-- `token::retire`: the supply decrement has no explicit lower-bound
check; only `sub_balance` on the issuer can stop it. -/
def retireOp (quantity : Asset) (memo : String) (s : State) : Except Err State :=
  if ¬ quantity.sym.isValid then .error .InvalidSymbol
  else if memo.length > 256 then .error .MemoTooLong
  else
    match tblFind s.stats quantity.sym.code with
    | none => .error .RecordNotFound
    | some st =>
      if ¬ quantity.isValid then .error .InvalidAmount
      else if quantity.amount ≤ 0 then .error .InvalidAmount
      else if quantity.sym ≠ st.supply.sym then .error .SymbolPrecisionMismatch
      else
        match subA st.supply quantity with
        | .error e => .error e
        | .ok sup =>
          sub_balance st.issuer quantity
            { s with
              stats := tblModify s.stats quantity.sym.code
                (fun r => { r with supply := sup }) }

/-- `token::claim`. -/
def claimOp (owner : Name) (symC : Nat) (s : State) : Except Err State :=
  do_claim owner symC s

/-- `token::recover`. -/
def recoverOp (owner : Name) (symC : Nat) (s : State) : Except Err State :=
  if ¬ symCodeValid symC then .error .InvalidSymbol
  else
    match tblFind s.stats symC with
    | none => .error .RecordNotFound
    | some st =>
      match tblFind s.accounts (owner, symC) with
      | none => .ok s
      | some row =>
        if row.claimed then .ok s
        else
          match add_balance st.issuer row.balance true s with
          | .error e => .error e
          | .ok s₁ =>
            let acnts := tblErase s₁.accounts (owner, symC)
            .ok { s₁ with accounts := acnts }

/-- `token::open`. -/
def openOp (owner : Name) (sym : Sym) (s : State) : Except Err State :=
  match tblFind s.stats sym.code with
  | none => .error .RecordNotFound
  | some st =>
    if st.supply.sym ≠ sym then .error .SymbolPrecisionMismatch
    else
      match tblFind s.accounts (owner, sym.code) with
      | some _ => .ok s
      | none =>
        match tblEmplace s.accounts (owner, sym.code) ⟨⟨0, sym⟩, true⟩ with
        | .error e => .error e
        | .ok t => .ok { s with accounts := t }

/-- `token::close`. -/
def closeOp (owner : Name) (sym : Sym) (s : State) : Except Err State :=
  match tblFind s.accounts (owner, sym.code) with
  | none => .error .RecordNotFound
  | some row =>
    if row.balance.amount ≠ 0 then .error .NotEmpty
    else
      let acnts := tblErase s.accounts (owner, sym.code)
      .ok { s with accounts := acnts }

/-- The value `getNextUTXOId` will return next (0 while the `utxoglobals`
row is absent). -/
def counterVal : Option Nat → Nat
  | none => 0
  | some n => n

/-- `token::getNextUTXOId`: returns 0 and emplaces `next_pk = 1` on first
use, afterwards returns `next_pk` and increments it. -/
def getNextUTXOId (s : State) : Nat × State :=
  match s.utxoGlobal with
  | none => (0, { s with utxoGlobal := some 1 })
  | some n => (n, { s with utxoGlobal := some (n + 1) })

/-- Input loop of `token::transferutxo`: look up each note, verify its
signature against the digest binding the note id to the output set,
accumulate its amount, erase (spend) it. -/
def processInputs (env : Env) (outputs : List Output) (inputs : List Input)
    (s : State) (acc : Asset) : Except Err (State × Asset) :=
  match inputs with
  | [] => .ok (s, acc)
  | i :: rest =>
    match tblFind s.utxos i.id with
    | none => .error .UnknownNote
    | some u =>
      if env.sigOk i.id outputs i.sig u.pk then
        match addA acc u.amount with
        | .error e => .error e
        | .ok acc' =>
          let ut := tblErase s.utxos i.id
          processInputs env outputs rest { s with utxos := ut } acc'
      else .error .BadSignature

/-- Output loop of `token::transferutxo`: validate each output, accumulate
the output sum, credit named accounts by an inline transfer from `_self`,
or mint a fresh note for a public key. -/
def processOutputs (env : Env) (payer : Name) (memo : String)
    (outputs : List Output) (s : State) (acc : Asset) :
    Except Err (State × Asset) :=
  match outputs with
  | [] => .ok (s, acc)
  | o :: rest =>
    if ¬ o.quantity.isValid then .error .InvalidAmount
    else if o.quantity.sym ≠ PEOS_SYMBOL then .error .SymbolPrecisionMismatch
    else if o.quantity.amount ≤ 0 then .error .InvalidAmount
    else
      match addA acc o.quantity with
      | .error e => .error e
      | .ok acc' =>
        if o.account ≠ 0 then
          match transferOp env SELF o.account o.quantity memo false s with
          | .error e => .error e
          | .ok s' => processOutputs env payer memo rest s' acc'
        else
          match tblEmplace (getNextUTXOId s).2.utxos (getNextUTXOId s).1
              ⟨o.pk, o.quantity⟩ with
          | .error e => .error e
          | .ok t =>
            processOutputs env payer memo rest
              { (getNextUTXOId s).2 with utxos := t } acc'

/-- `token::transferutxo`. -/
def transferutxoOp (env : Env) (payer : Name) (inputs : List Input)
    (outputs : List Output) (memo : String) (s : State) : Except Err State :=
  if memo.length > 256 then .error .MemoTooLong
  else
    match processInputs env outputs inputs s ⟨0, PEOS_SYMBOL⟩ with
    | .error e => .error e
    | .ok (s₁, inputSum) =>
      match processOutputs env payer memo outputs s₁ ⟨0, PEOS_SYMBOL⟩ with
      | .error e => .error e
      | .ok (s₂, outputSum) =>
        if inputSum.sym ≠ outputSum.sym then .error .SymbolPrecisionMismatch
        else if inputSum.amount < outputSum.amount then .error .InputsInsufficient
        else
          match subA inputSum outputSum with
          | .error e => .error e
          | .ok fees =>
            if 0 < fees.amount then transferOp env SELF payer fees "" false s₂
            else .ok s₂

/-- `token::loadutxo`. -/
def loadutxoOp (env : Env) (frm : Name) (pk : Nat) (quantity : Asset)
    (s : State) : Except Err State :=
  if ¬ quantity.sym.isValid then .error .InvalidSymbol
  else if quantity.amount ≤ 0 then .error .InvalidAmount
  else
    match tblFind s.stats quantity.sym.code with
    | none => .error .RecordNotFound
    | some st =>
      match transferOp env frm st.issuer quantity "" false s with
      | .error e => .error e
      | .ok s₁ =>
        match tblEmplace (getNextUTXOId s₁).2.utxos (getNextUTXOId s₁).1
            ⟨pk, quantity⟩ with
        | .error e => .error e
        | .ok t => .ok { (getNextUTXOId s₁).2 with utxos := t }

/-- The `profit` local of `token::realizediv`:
`(div.totalDividendFrac - stake.lastDividendsFrac) * stake.quantity.amount`. -/
def divProfit (stk : StakeRow) (div : DividendRow) : ℚ :=
  (div.totalDividendFrac - stk.lastDividendsFrac) * (stk.quantity.amount : ℚ)

/-- The two unconditional table writes of `token::realizediv`: the
unclaimed pool is decreased by the full fractional profit through the
truncating `int64 -= double`, and the stake's snapshot fraction is
advanced to the accumulator. -/
def realizeDivSnap (owner : Name) (stk : StakeRow) (div : DividendRow)
    (s : State) : State :=
  { s with
    dividends := tblModify s.dividends PEOS_CODE
      (fun d => { d with totalUnclaimedDividends :=
        ⟨ratTrunc ((d.totalUnclaimedDividends.amount : ℚ) - divProfit stk div),
         d.totalUnclaimedDividends.sym⟩ }),
    stakes := tblModify s.stakes (owner, PEOS_CODE)
      (fun r => { r with lastDividendsFrac := div.totalDividendFrac }) }

/-- `token::realizediv`. No-op without a PEOS stake row or with a zero
staked amount; otherwise both `realizeDivSnap` writes always happen and a
payout of `(int64_t) profit` happens only when `profit >= 1.0`.
Dereferencing a missing dividends row aborts. -/
def realizedivOp (env : Env) (owner : Name) (s : State) : Except Err State :=
  match tblFind s.stakes (owner, PEOS_CODE) with
  | none => .ok s
  | some stk =>
    if stk.quantity.amount = 0 then .ok s
    else
      match tblFind s.dividends PEOS_CODE with
      | none => .error .RecordNotFound
      | some div =>
        if 1 ≤ divProfit stk div then
          transferOp env SELF owner ⟨ratTrunc (divProfit stk div), PEOS_SYMBOL⟩
            "Your dividents from staked PEOS tokens" false
            (realizeDivSnap owner stk div s)
        else .ok (realizeDivSnap owner stk div s)

/-- Dividend-table part of `token::stake`: returns the accumulator snapshot
(`totalDividendFrac` local in the C++) and the state with `totalStaked`
increased, creating the row at accumulator 1.0 when absent. -/
def stakeDividendUpd (quantity : Asset) (s : State) : Except Err (ℚ × State) :=
  match tblFind s.dividends quantity.sym.code with
  | some d =>
    match addA d.totalStaked quantity with
    | .error e => .error e
    | .ok ts =>
      .ok (d.totalDividendFrac,
        { s with
          dividends := tblModify s.dividends quantity.sym.code
            (fun r => { r with totalStaked := ts }) })
  | none =>
    match tblEmplace s.dividends quantity.sym.code
        ⟨quantity, ⟨0, PEOS_SYMBOL⟩, ⟨0, PEOS_SYMBOL⟩, 1⟩ with
    | .error e => .error e
    | .ok t => .ok ((1 : ℚ), { s with dividends := t })

/-- `token::stake`. The stake-row iterator is taken before the dividend
update, but that update only touches the `dividends` table, so the row is
read from the post-`realizediv` state. -/
def stakeOp (env : Env) (owner : Name) (quantity : Asset) (s : State) :
    Except Err State :=
  match tblFind s.stats quantity.sym.code with
  | none => .error .RecordNotFound
  | some st =>
    if ¬ quantity.isValid then .error .InvalidAmount
    else if quantity.amount ≤ 0 then .error .InvalidAmount
    else if quantity.sym ≠ st.supply.sym then .error .SymbolPrecisionMismatch
    else
      match realizedivOp env owner s with
      | .error e => .error e
      | .ok s₁ =>
        match stakeDividendUpd quantity s₁ with
        | .error e => .error e
        | .ok fs =>
          match tblFind s₁.stakes (owner, quantity.sym.code) with
          | some stk =>
            match addA stk.quantity quantity with
            | .error e => .error e
            | .ok q' =>
              if stk.lastDividendsFrac ≠ fs.1 then .error .DividendsNotRealized
              else
                transferOp env owner SELF quantity "PEOS tokens staked" false
                  { fs.2 with
                    stakes := tblModify fs.2.stakes (owner, quantity.sym.code)
                      (fun r => { r with quantity := q' }) }
          | none =>
            match tblEmplace fs.2.stakes (owner, quantity.sym.code)
                ⟨quantity, fs.1⟩ with
            | .error e => .error e
            | .ok t =>
              transferOp env owner SELF quantity "PEOS tokens staked" false
                { fs.2 with stakes := t }

/-- The clamp of `token::unstake`: a request of at least the staked amount
withdraws exactly the staked amount. -/
def unstakeClamp (stk : StakeRow) (q0 : Asset) : Asset :=
  if stk.quantity.amount ≤ q0.amount then stk.quantity else q0

/-- Stake-row update of `token::unstake`: erase the position on full
withdrawal, else decrement it in place. -/
def unstakeRows (owner : Name) (stk : StakeRow) (q0 : Asset) (s : State) :
    Except Err State :=
  if stk.quantity.amount ≤ q0.amount then
    .ok { s with stakes := tblErase s.stakes (owner, q0.sym.code) }
  else
    match subA stk.quantity q0 with
    | .error e => .error e
    | .ok q' =>
      .ok { s with
        stakes := tblModify s.stakes (owner, q0.sym.code)
          (fun r => { r with quantity := q' }) }

/-- `token::unstake`. A request larger than the staked amount is clamped to
it; the position is erased on full withdrawal; the refund request is
created or extended with a reset timer. No tokens are paid back here. -/
def unstakeOp (env : Env) (owner : Name) (quantity0 : Asset) (s : State) :
    Except Err State :=
  match realizedivOp env owner s with
  | .error e => .error e
  | .ok s₁ =>
    match tblFind s₁.stakes (owner, quantity0.sym.code) with
    | none => .error .RecordNotFound
    | some stk =>
      if stk.quantity.sym ≠ quantity0.sym then .error .SymbolPrecisionMismatch
      else
        match unstakeRows owner stk quantity0 s₁ with
        | .error e => .error e
        | .ok s₂ =>
          match tblFind s₂.stats quantity0.sym.code with
          | none => .error .RecordNotFound
          | some st =>
            if ¬ (unstakeClamp stk quantity0).isValid then .error .InvalidAmount
            else if (unstakeClamp stk quantity0).amount ≤ 0 then .error .InvalidAmount
            else if (unstakeClamp stk quantity0).sym ≠ st.supply.sym then
              .error .SymbolPrecisionMismatch
            else
              match tblFind s₂.dividends quantity0.sym.code with
              | none => .error .RecordNotFound
              | some d =>
                match subA d.totalStaked (unstakeClamp stk quantity0) with
                | .error e => .error e
                | .ok ts =>
                  match tblFind s₂.refunds owner with
                  | some r =>
                    match addA r.amount (unstakeClamp stk quantity0) with
                    | .error e => .error e
                    | .ok amt =>
                      .ok { s₂ with
                        dividends := tblModify s₂.dividends quantity0.sym.code
                          (fun r2 => { r2 with totalStaked := ts }),
                        refunds := tblModify s₂.refunds owner
                          (fun _ => ⟨env.now, amt⟩) }
                  | none =>
                    match tblEmplace s₂.refunds owner ⟨env.now, unstakeClamp stk quantity0⟩ with
                    | .error e => .error e
                    | .ok t =>
                      .ok { s₂ with
                        dividends := tblModify s₂.dividends quantity0.sym.code
                          (fun r2 => { r2 with totalStaked := ts }),
                        refunds := t }

/-- `token::refund`. -/
def refundOp (env : Env) (owner : Name) (s : State) : Except Err State :=
  match tblFind s.refunds owner with
  | none => .error .RefundNotFound
  | some r =>
    if ¬ (r.request_time + refund_delay ≤ env.now) then .error .RefundLocked
    else
      match transferOp env SELF owner r.amount "Your unstaked PEOS tokens" false s with
      | .error e => .error e
      | .ok s₁ => .ok { s₁ with refunds := tblErase s₁.refunds owner }

/-- `token::distribute`. -/
def distributeOp (env : Env) (owner : Name) (quantity : Asset) (s : State) :
    Except Err State :=
  match transferOp env owner SELF quantity "" false s with
  | .error e => .error e
  | .ok s₁ =>
    if quantity.sym ≠ PEOS_SYMBOL then .error .InvalidSymbol
    else if quantity.amount ≤ 0 then .error .InvalidAmount
    else
      match tblFind s₁.dividends PEOS_CODE with
      | none =>
        match tblEmplace s₁.dividends PEOS_CODE
            ⟨⟨0, PEOS_SYMBOL⟩, ⟨0, PEOS_SYMBOL⟩, quantity, 1⟩ with
        | .error e => .error e
        | .ok t => .ok { s₁ with dividends := t }
      | some d =>
        match addA d.totalUnclaimedDividends quantity with
        | .error e => .error e
        | .ok unc =>
          if 0 < d.totalStaked.amount then
            match addA d.totalDividends quantity with
            | .error e => .error e
            | .ok td =>
              .ok { s₁ with
                dividends := tblModify s₁.dividends PEOS_CODE (fun r =>
                  ⟨r.totalStaked, td, unc,
                   r.totalDividendFrac +
                     (quantity.amount : ℚ) / (d.totalStaked.amount : ℚ)⟩) }
          else
            .ok { s₁ with
              dividends := tblModify s₁.dividends PEOS_CODE
                (fun r => { r with totalUnclaimedDividends := unc }) }

/-- One dispatched contract action (`EOSIO_DISPATCH` list). -/
inductive Act where
  | create (issuer : Name) (maximumSupply : Asset)
  | update (issuer : Name) (maximumSupply : Asset)
  | issue (dst : Name) (quantity : Asset) (memo : String)
  | retire (quantity : Asset) (memo : String)
  | transfer (frm dst : Name) (quantity : Asset) (memo : String)
  | claim (owner : Name) (symC : Nat)
  | recover (owner : Name) (symC : Nat)
  | openAcct (owner : Name) (sym : Sym)
  | close (owner : Name) (sym : Sym)
  | transferutxo (payer : Name) (inputs : List Input) (outputs : List Output)
      (memo : String)
  | loadutxo (frm : Name) (pk : Nat) (quantity : Asset)
  | stake (owner : Name) (quantity : Asset)
  | unstake (owner : Name) (quantity : Asset)
  | realizediv (owner : Name)
  | refund (owner : Name)
  | distribute (owner : Name) (quantity : Asset)

/-- Action dispatch. -/
def exec (env : Env) (a : Act) (s : State) : Except Err State :=
  match a with
  | .create issuer m => createOp issuer m s
  | .update issuer m => updateOp issuer m s
  | .issue dst q memo => issueOp env dst q memo s
  | .retire q memo => retireOp q memo s
  | .transfer f d q memo => transferOp env f d q memo env.hasAuthTo s
  | .claim o c => claimOp o c s
  | .recover o c => recoverOp o c s
  | .openAcct o sym => openOp o sym s
  | .close o sym => closeOp o sym s
  | .transferutxo p i o m => transferutxoOp env p i o m s
  | .loadutxo f pk q => loadutxoOp env f pk q s
  | .stake o q => stakeOp env o q s
  | .unstake o q => unstakeOp env o q s
  | .realizediv o => realizedivOp env o s
  | .refund o => refundOp env o s
  | .distribute o q => distributeOp env o q s

/-- Sum of all account balances recorded for a symbol code. -/
def balSum (t : Tbl (Name × Nat) AccountRow) (c : Nat) : Int :=
  (t.map (fun p => if p.1.2 = c then p.2.balance.amount else 0)).sum

/-- Primary keys of a table are pairwise distinct. -/
def keysNodup {K V : Type} (t : Tbl K V) : Prop := (t.map Prod.fst).Nodup

/-- Every table except `accounts` is unchanged. -/
abbrev sameExceptAccounts (s s' : State) : Prop :=
  s'.stats = s.stats ∧ s'.vesting = s.vesting ∧ s'.utxos = s.utxos ∧
  s'.utxoGlobal = s.utxoGlobal ∧ s'.stakes = s.stakes ∧
  s'.dividends = s.dividends ∧ s'.refunds = s.refunds

/-- The `accounts`-table facts of `Inv`: nonnegative balance, a stats row
for the symbol, and the row key agreeing with the balance's symbol code. -/
abbrev acctRowOk (stats : Tbl Nat CurrencyStats) (p : (Name × Nat) × AccountRow) : Prop :=
  0 ≤ p.2.balance.amount ∧ (tblFind stats p.1.2).isSome = true ∧
    p.2.balance.sym.code = p.1.2

/-- The `accounts`-table facts of `Inv` are preserved. -/
abbrev acctPres (s s' : State) : Prop :=
  (keysNodup s.accounts → keysNodup s'.accounts) ∧
  ((∀ p ∈ s.accounts, acctRowOk s.stats p) → ∀ p ∈ s'.accounts, acctRowOk s'.stats p)

/-- The inductive state invariant: unique primary keys, supply within
`[0, max_supply]` and dominating the recorded balances of its symbol,
nonnegative balances recorded only for created symbols, note ids below the
allocation counter, and a dividends row underneath every stake row. -/
structure Inv (s : State) : Prop where
  ndStats : keysNodup s.stats
  ndAccounts : keysNodup s.accounts
  ndVesting : keysNodup s.vesting
  ndUtxos : keysNodup s.utxos
  ndStakes : keysNodup s.stakes
  ndDividends : keysNodup s.dividends
  ndRefunds : keysNodup s.refunds
  statsOk : ∀ p ∈ s.stats, 0 ≤ p.2.supply.amount ∧
    p.2.supply.amount ≤ p.2.max_supply.amount ∧
    balSum s.accounts p.1 ≤ p.2.supply.amount
  acctOk : ∀ p ∈ s.accounts, acctRowOk s.stats p
  utxoOk : ∀ p ∈ s.utxos, p.1 < counterVal s.utxoGlobal
  stakeOk : ∀ p ∈ s.stakes, (tblFind s.dividends p.1.2).isSome = true

/-- States reachable from a fresh deployment by successful actions. -/
inductive Reachable : State → Prop where
  | init : Reachable initState
  | step {s s' : State} (env : Env) (a : Act) :
      Reachable s → exec env a s = .ok s' → Reachable s'

/-- One successful action by some caller. -/
def Step (s s' : State) : Prop := ∃ env a, exec env a s = .ok s'

/-- Any finite sequence of successful actions. -/
abbrev Steps : State → State → Prop := Relation.ReflTransGen Step

/-- The balance amount an owner holds for a symbol code (0 when the row is
absent). -/
def balOf (s : State) (n : Name) (c : Nat) : Int :=
  match tblFind s.accounts (n, c) with
  | some r => r.balance.amount
  | none => 0

/-- The ceiling each privileged account is checked against
(code branches of `validate_peos_team_vesting`). -/
def vestClaimable (now : Nat) (account : Name) : Int :=
  if account = PEOS_MARKETING_ACCOUNT then marketingCap
  else if account = PEOS_TEAMFUND_ACCOUNT then teamClaimable now
  else if account = PEOS_CONTRACT_ACCOUNT then airdropCap
  else 0

/-- The UTXO-table/counter footprint of one step: the counter never
decreases, and every row of the new table is either an old row or a fresh
note whose id was allocated from the counter. -/
def UtxoStepOk (s s' : State) : Prop :=
  counterVal s.utxoGlobal ≤ counterVal s'.utxoGlobal ∧
  (∀ p ∈ s'.utxos, p ∈ s.utxos ∨
    (counterVal s.utxoGlobal ≤ p.1 ∧ p.1 < counterVal s'.utxoGlobal))

/-! ### Concrete test fixtures

States and calls used to instantiate the verified properties on concrete
inputs. `okState`/`okPair` name the result of a successful call (falling
back to `initState` on error, which the accompanying `rfl` proofs rule
out). -/

/-- A test environment: every name is an account, `now` fixed, top-level
`has_auth(to)` false, every signature valid. -/
def envT : Env := ⟨fun _ => true, 1600000000, false, fun _ _ _ _ => true⟩

/-- The result state of a successful call. -/
def okState (r : Except Err State) : State :=
  match r with
  | .ok s => s
  | .error _ => initState

/-- The result of a successful loop call returning a state and a sum. -/
def okPair (r : Except Err (State × Asset)) : State × Asset :=
  match r with
  | .ok p => p
  | .error _ => (initState, ⟨0, PEOS_SYMBOL⟩)

/-- Raw code of the symbol `SYM` (bytes `S`, `Y`, `M`), precision 4. -/
def SYM_SYMBOL : Sym := ⟨5069139, 4⟩

/-- A reachable chain: create PEOS (issuer `1` = the contract account). -/
def cS1 : State :=
  okState (exec envT (.create 1 ⟨4000000000, PEOS_SYMBOL⟩) initState)

/-- ... then issue 100.0000 PEOS to the issuer. -/
def cS2 : State := okState (exec envT (.issue 1 ⟨1000000, PEOS_SYMBOL⟩ "") cS1)

/-- ... then transfer the 100.0000 PEOS to account `5`. -/
def cS3 : State := okState (exec envT (.transfer 1 5 ⟨1000000, PEOS_SYMBOL⟩ "") cS2)

/-- ... then account `5` stakes 40.0000 PEOS. -/
def cS4 : State := okState (exec envT (.stake 5 ⟨400000, PEOS_SYMBOL⟩) cS3)

/-- Retiring 10.0000 PEOS from the post-issue state. -/
def cS2r : State := okState (retireOp ⟨100000, PEOS_SYMBOL⟩ "" cS2)

/-- Stake position for the truncation test: 0.0001 PEOS staked, snapshot
fraction 1. -/
def stkC4 : StakeRow := ⟨⟨1, PEOS_SYMBOL⟩, 1⟩

/-- Dividends row for the truncation test: accumulator `3/2`, so the
pending profit of `stkC4` is `1/2 < 1`, with 0.0010 PEOS unclaimed. -/
def divC4 : DividendRow := ⟨⟨1, PEOS_SYMBOL⟩, ⟨0, PEOS_SYMBOL⟩, ⟨10, PEOS_SYMBOL⟩, 3/2⟩

/-- State for the truncation test. -/
def sC4 : State :=
  ⟨[(PEOS_CODE, ⟨⟨1000000, PEOS_SYMBOL⟩, ⟨4000000000, PEOS_SYMBOL⟩, 1⟩)],
   [], [], [], none, [((5, PEOS_CODE), stkC4)], [(PEOS_CODE, divC4)], []⟩

/-- Result of `realizediv` on the truncation test state. -/
def sC4' : State := realizeDivSnap 5 stkC4 divC4 sC4

/-- The staked amount of the stake/unstake round trip, 40.0000 PEOS. -/
def q4 : Asset := ⟨400000, PEOS_SYMBOL⟩

/-- Start state of the stake/unstake round trip: account `5` holds
100.0000 PEOS, no stake, no refund. -/
def sC7 : State :=
  ⟨[(PEOS_CODE, ⟨⟨1000000, PEOS_SYMBOL⟩, ⟨4000000000, PEOS_SYMBOL⟩, 1⟩)],
   [((5, PEOS_CODE), ⟨⟨1000000, PEOS_SYMBOL⟩, true⟩)],
   [], [], none, [], [], []⟩

/-- After `stake(5, 40.0000 PEOS)`. -/
def sC7a : State := okState (stakeOp envT 5 q4 sC7)

/-- After the immediate `unstake(5, 40.0000 PEOS)`. -/
def sC7b : State := okState (unstakeOp envT 5 q4 sC7a)

/-- The distributed amount of the dividend test, 0.1000 PEOS. -/
def qD : Asset := ⟨1000, PEOS_SYMBOL⟩

/-- Start state of the dividend-distribution test: 0.0100 PEOS staked in
total, fresh dividends row, distributor `5` funded. -/
def sD : State :=
  ⟨[(PEOS_CODE, ⟨⟨1000000, PEOS_SYMBOL⟩, ⟨4000000000, PEOS_SYMBOL⟩, 1⟩)],
   [((5, PEOS_CODE), ⟨⟨500000, PEOS_SYMBOL⟩, true⟩),
    ((1, PEOS_CODE), ⟨⟨500000, PEOS_SYMBOL⟩, true⟩)],
   [], [], none, [],
   [(PEOS_CODE, ⟨⟨100, PEOS_SYMBOL⟩, ⟨0, PEOS_SYMBOL⟩, ⟨0, PEOS_SYMBOL⟩, 1⟩)], []⟩

/-- After `distribute(5, 0.1000 PEOS)`. -/
def sD' : State := okState (distributeOp envT 5 qD sD)

/-- An issuance that bursts the marketing budget: 60,000,000.0000 PEOS
against the 50,000,000.0000 cap. -/
def qC6 : Asset := ⟨600000000000, PEOS_SYMBOL⟩

/-- Start state of the budget test: PEOS created with the marketing
account (`2`) as issuer, nothing issued yet. -/
def s6 : State :=
  ⟨[(PEOS_CODE, ⟨⟨0, PEOS_SYMBOL⟩, ⟨1000000000000, PEOS_SYMBOL⟩, 2⟩)],
   [], [], [], none, [], [], []⟩

/-- The state `issue` reaches just before the vesting validation. -/
def s6a : State := okState (issueCore envT 2 qC6 "" s6)

/-- ... and after the vesting-record update inside the validation. -/
def s6b : State := okState (vestingUpdate 2 qC6 s6a)

/-- Inputs of the UTXO test: spend note 0. -/
def insW : List Input := [⟨0, 0⟩]

/-- Outputs of the UTXO test: 0.0060 PEOS to account `5` (the 0.0040
remainder is the fee). -/
def outsW : List Output := [⟨0, 5, ⟨60, PEOS_SYMBOL⟩⟩]

/-- Start state of the UTXO test: one note (id 0, 0.0100 PEOS), counter at
1, the contract account funded to back the note. -/
def sW : State :=
  ⟨[(PEOS_CODE, ⟨⟨1000000, PEOS_SYMBOL⟩, ⟨4000000000, PEOS_SYMBOL⟩, 1⟩)],
   [((1, PEOS_CODE), ⟨⟨1000000, PEOS_SYMBOL⟩, true⟩)],
   [], [(0, ⟨7, ⟨100, PEOS_SYMBOL⟩⟩)], some 1, [], [], []⟩

/-- After the input loop of the UTXO test (note 0 spent). -/
def sW₁ : State := (okPair (processInputs envT outsW insW sW ⟨0, PEOS_SYMBOL⟩)).1

/-- After the output loop of the UTXO test (account `5` credited). -/
def sW₂ : State := (okPair (processOutputs envT 5 "" outsW sW₁ ⟨0, PEOS_SYMBOL⟩)).1

/-- After the whole `transferutxo` of the UTXO test (fee paid to `5`). -/
def sW₃ : State := okState (transferutxoOp envT 5 insW outsW "" sW)

/-- Overdrawn outputs for the UTXO failure test: 0.0200 PEOS demanded from
a 0.0100 note. -/
def outsWbig : List Output := [⟨0, 5, ⟨200, PEOS_SYMBOL⟩⟩]

/-- After the input loop of the failing UTXO test. -/
def sWbig : State := (okPair (processInputs envT outsWbig insW sW ⟨0, PEOS_SYMBOL⟩)).1

/-- After the output loop of the failing UTXO test (the shortfall is only
caught afterwards). -/
def sWbig₂ : State :=
  (okPair (processOutputs envT 5 "" outsWbig sWbig ⟨0, PEOS_SYMBOL⟩)).1

/-- `SYM` created by the unprivileged account `5` (max 1000.0000). -/
def sE1 : State := okState (createOp 5 ⟨10000000, SYM_SYMBOL⟩ initState)

/-- `SYM` created by the marketing account (max 1000.0000). -/
def sM1 : State :=
  okState (createOp PEOS_MARKETING_ACCOUNT ⟨10000000, SYM_SYMBOL⟩ initState)

/-- ... then 100.0000 SYM issued to the marketing account. -/
def sM2 : State :=
  okState (issueOp envT PEOS_MARKETING_ACCOUNT ⟨1000000, SYM_SYMBOL⟩ "" sM1)

/-! ### Table lemmas -/

theorem tblFind_eq_none {K V : Type} [DecidableEq K] {t : Tbl K V} {k : K} :
    tblFind t k = none ↔ k ∉ t.map Prod.fst := by
  induction t with
  | nil => simp [tblFind]
  | cons p r ih =>
    obtain ⟨k', v⟩ := p
    by_cases h : k' = k <;> simp [tblFind, h, ih] <;> tauto

theorem tblFind_isSome {K V : Type} [DecidableEq K] {t : Tbl K V} {k : K} :
    (tblFind t k).isSome = true ↔ k ∈ t.map Prod.fst := by
  rcases hf : tblFind t k with _ | v
  · simpa [hf] using tblFind_eq_none.mp hf
  · simp only [Option.isSome_some, true_iff]
    by_contra hk
    rw [← tblFind_eq_none] at hk
    rw [hf] at hk
    cases hk

theorem tblEmplace_ok {K V : Type} [DecidableEq K] {t t' : Tbl K V} {k : K} {v : V}
    (h : tblEmplace t k v = .ok t') : tblFind t k = none ∧ t' = (k, v) :: t := by
  unfold tblEmplace at h
  cases hf : tblFind t k with
  | none => rw [hf] at h; injection h with h; exact ⟨rfl, h.symm⟩
  | some w => rw [hf] at h; cases h

theorem keys_tblModify {K V : Type} [DecidableEq K] (t : Tbl K V) (k : K) (f : V → V) :
    (tblModify t k f).map Prod.fst = t.map Prod.fst := by
  induction t with
  | nil => rfl
  | cons p r ih =>
    obtain ⟨a, v⟩ := p
    by_cases h : a = k <;> simp [tblModify, h, ih]

theorem tblFind_modify_self {K V : Type} [DecidableEq K] (t : Tbl K V) (k : K)
    (f : V → V) : tblFind (tblModify t k f) k = (tblFind t k).map f := by
  induction t with
  | nil => rfl
  | cons p r ih =>
    obtain ⟨a, v⟩ := p
    by_cases h : a = k <;> simp [tblModify, tblFind, h, ih]

theorem tblFind_modify_ne {K V : Type} [DecidableEq K] (t : Tbl K V) (k k' : K)
    (f : V → V) (h : k' ≠ k) : tblFind (tblModify t k f) k' = tblFind t k' := by
  induction t with
  | nil => rfl
  | cons p r ih =>
    obtain ⟨a, v⟩ := p
    by_cases ha : a = k
    · subst ha
      have : a ≠ k' := fun hh => h (hh.symm)
      simp [tblModify, tblFind, this]
    · by_cases hak : a = k' <;> simp [tblModify, tblFind, ha, hak, ih, h]

theorem keys_tblErase_sublist {K V : Type} [DecidableEq K] (t : Tbl K V) (k : K) :
    List.Sublist ((tblErase t k).map Prod.fst) (t.map Prod.fst) := by
  induction t with
  | nil => simp [tblErase]
  | cons p r ih =>
    obtain ⟨a, v⟩ := p
    by_cases h : a = k
    · simp only [tblErase, if_pos h, List.map_cons]
      exact (List.sublist_cons_self _ _)
    · simp only [tblErase, if_neg h, List.map_cons]
      exact ih.cons₂ _

theorem tblFind_erase_ne {K V : Type} [DecidableEq K] (t : Tbl K V) (k k' : K)
    (h : k' ≠ k) : tblFind (tblErase t k) k' = tblFind t k' := by
  induction t with
  | nil => rfl
  | cons p r ih =>
    obtain ⟨a, v⟩ := p
    by_cases ha : a = k
    · subst ha
      have : a ≠ k' := fun hh => h (hh.symm)
      simp [tblErase, tblFind, this]
    · by_cases hak : a = k' <;> simp [tblErase, tblFind, ha, hak, ih, h]

theorem tblFind_erase_self {K V : Type} [DecidableEq K] {t : Tbl K V} (k : K)
    (h : keysNodup t) : tblFind (tblErase t k) k = none := by
  induction t with
  | nil => rfl
  | cons p r ih =>
    obtain ⟨a, v⟩ := p
    obtain ⟨ha, hr⟩ := List.nodup_cons.mp h
    by_cases hak : a = k
    · subst hak
      simp only [tblErase, if_pos rfl]
      exact tblFind_eq_none.mpr ha
    · simp only [tblErase, if_neg hak, tblFind, if_neg hak]
      exact ih hr

theorem mem_tblErase {K V : Type} [DecidableEq K] {t : Tbl K V} {k : K} {p : K × V}
    (h : p ∈ tblErase t k) : p ∈ t := by
  induction t with
  | nil => cases h
  | cons q r ih =>
    obtain ⟨a, v⟩ := q
    by_cases ha : a = k
    · simp only [tblErase, if_pos ha] at h
      exact List.mem_cons_of_mem _ h
    · simp only [tblErase, if_neg ha, List.mem_cons] at h
      rcases h with h | h
      · exact h ▸ List.mem_cons_self _ _
      · exact List.mem_cons_of_mem _ (ih h)

theorem mem_tblModify {K V : Type} [DecidableEq K] {t : Tbl K V} {k : K} {f : V → V}
    {p : K × V} (h : p ∈ tblModify t k f) :
    p ∈ t ∨ ∃ v, tblFind t k = some v ∧ p = (k, f v) := by
  induction t with
  | nil => cases h
  | cons q r ih =>
    obtain ⟨a, v⟩ := q
    by_cases ha : a = k
    · subst ha
      have hm : tblModify ((a, v) :: r) a f = (a, f v) :: r := by
        simp [tblModify]
      rw [hm, List.mem_cons] at h
      cases h with
      | inl h1 =>
        refine Or.inr ⟨v, ?_, h1⟩
        simp [tblFind]
      | inr h2 => exact Or.inl (List.mem_cons_of_mem _ h2)
    · have hm : tblModify ((a, v) :: r) k f = (a, v) :: tblModify r k f := by
        simp [tblModify, ha]
      rw [hm, List.mem_cons] at h
      cases h with
      | inl h1 => exact Or.inl (h1 ▸ List.mem_cons_self _ _)
      | inr h2 =>
        rcases ih h2 with h' | ⟨w, hw, hp⟩
        · exact Or.inl (List.mem_cons_of_mem _ h')
        · refine Or.inr ⟨w, ?_, hp⟩
          simp [tblFind, ha, hw]

theorem keysNodup_modify {K V : Type} [DecidableEq K] {t : Tbl K V}
    (h : keysNodup t) (k : K) (f : V → V) : keysNodup (tblModify t k f) := by
  unfold keysNodup
  rw [keys_tblModify]
  exact h

theorem keysNodup_erase {K V : Type} [DecidableEq K] {t : Tbl K V}
    (h : keysNodup t) (k : K) : keysNodup (tblErase t k) :=
  (keys_tblErase_sublist t k).nodup h

theorem keysNodup_cons {K V : Type} [DecidableEq K] {t : Tbl K V} {k : K} {v : V}
    (h : keysNodup t) (hf : tblFind t k = none) : keysNodup ((k, v) :: t) := by
  unfold keysNodup
  simp only [List.map_cons, List.nodup_cons]
  exact ⟨tblFind_eq_none.mp hf, h⟩

/-! ### Asset arithmetic inversions -/

theorem addA_ok {a b r : Asset} (h : addA a b = .ok r) :
    a.sym = b.sym ∧ r = ⟨a.amount + b.amount, a.sym⟩ := by
  unfold addA at h
  split at h
  · cases h
  · split at h
    · injection h with h; exact ⟨by tauto, h.symm⟩
    · cases h

theorem subA_ok {a b r : Asset} (h : subA a b = .ok r) :
    a.sym = b.sym ∧ r = ⟨a.amount - b.amount, a.sym⟩ := by
  unfold subA at h
  split at h
  · cases h
  · split at h
    · injection h with h; exact ⟨by tauto, h.symm⟩
    · cases h

/-! ### Balance-sum lemmas -/

theorem balSum_cons (k : Name × Nat) (v : AccountRow) (t : Tbl (Name × Nat) AccountRow)
    (c : Nat) :
    balSum ((k, v) :: t) c = (if k.2 = c then v.balance.amount else 0) + balSum t c := by
  simp [balSum]

theorem balSum_modify {t : Tbl (Name × Nat) AccountRow} {k : Name × Nat}
    {v : AccountRow} (hf : tblFind t k = some v) (f : AccountRow → AccountRow)
    (c : Nat) :
    balSum (tblModify t k f) c = balSum t c
      - (if k.2 = c then v.balance.amount else 0)
      + (if k.2 = c then (f v).balance.amount else 0) := by
  induction t with
  | nil => cases hf
  | cons p r ih =>
    obtain ⟨a, w⟩ := p
    by_cases ha : a = k
    · subst ha
      rw [tblFind, if_pos rfl] at hf
      injection hf with hf
      subst hf
      have hm : tblModify ((a, w) :: r) a f = (a, f w) :: r := by
        simp [tblModify]
      rw [hm, balSum_cons, balSum_cons]
      by_cases hc : a.2 = c <;> simp [hc] <;> omega
    · rw [tblFind, if_neg ha] at hf
      have hm : tblModify ((a, w) :: r) k f = (a, w) :: tblModify r k f := by
        simp [tblModify, ha]
      rw [hm, balSum_cons, balSum_cons, ih hf]
      omega

theorem balSum_erase {t : Tbl (Name × Nat) AccountRow} {k : Name × Nat}
    {v : AccountRow} (hf : tblFind t k = some v) (c : Nat) :
    balSum (tblErase t k) c = balSum t c - (if k.2 = c then v.balance.amount else 0) := by
  induction t with
  | nil => cases hf
  | cons p r ih =>
    obtain ⟨a, w⟩ := p
    by_cases ha : a = k
    · subst ha
      rw [tblFind, if_pos rfl] at hf
      injection hf with hf
      subst hf
      have hm : tblErase ((a, w) :: r) a = r := by
        simp [tblErase]
      rw [hm, balSum_cons]
      by_cases hc : a.2 = c <;> simp [hc] <;> omega
    · rw [tblFind, if_neg ha] at hf
      have hm : tblErase ((a, w) :: r) k = (a, w) :: tblErase r k := by
        simp [tblErase, ha]
      rw [hm, balSum_cons, balSum_cons, ih hf]
      omega

theorem balSum_nonneg {t : Tbl (Name × Nat) AccountRow}
    (hpos : ∀ p ∈ t, 0 ≤ p.2.balance.amount) (c : Nat) : 0 ≤ balSum t c := by
  induction t with
  | nil => simp [balSum]
  | cons p r ih =>
    obtain ⟨a, w⟩ := p
    rw [balSum_cons]
    have h1 : 0 ≤ w.balance.amount := hpos (a, w) (List.mem_cons_self _ _)
    have h2 : 0 ≤ balSum r c := ih (fun q hq => hpos q (List.mem_cons_of_mem _ hq))
    by_cases hc : a.2 = c <;> simp [hc] <;> omega

theorem balSum_lower {t : Tbl (Name × Nat) AccountRow} {k : Name × Nat}
    {v : AccountRow} (hf : tblFind t k = some v)
    (hpos : ∀ p ∈ t, 0 ≤ p.2.balance.amount) (c : Nat) (hc : k.2 = c) :
    v.balance.amount ≤ balSum t c := by
  induction t with
  | nil => cases hf
  | cons p r ih =>
    obtain ⟨a, w⟩ := p
    have hr : ∀ q ∈ r, 0 ≤ q.2.balance.amount :=
      fun q hq => hpos q (List.mem_cons_of_mem _ hq)
    by_cases ha : a = k
    · subst ha
      rw [tblFind, if_pos rfl] at hf
      injection hf with hf
      subst hf
      rw [balSum_cons, if_pos hc]
      have := balSum_nonneg hr c
      omega
    · rw [tblFind, if_neg ha] at hf
      rw [balSum_cons]
      have h1 : 0 ≤ w.balance.amount := hpos (a, w) (List.mem_cons_self _ _)
      have := ih hf hr
      by_cases hac : a.2 = c <;> simp [hac] <;> omega

theorem balSum_zero_of_absent {stats : Tbl Nat CurrencyStats}
    {t : Tbl (Name × Nat) AccountRow} {c : Nat}
    (h : ∀ p ∈ t, (tblFind stats p.1.2).isSome = true)
    (hc : tblFind stats c = none) : balSum t c = 0 := by
  induction t with
  | nil => simp [balSum]
  | cons p r ih =>
    obtain ⟨a, w⟩ := p
    rw [balSum_cons]
    have hr := ih (fun q hq => h q (List.mem_cons_of_mem _ hq))
    by_cases hac : a.2 = c
    · exfalso
      have := h (a, w) (List.mem_cons_self _ _)
      rw [hac, hc] at this
      cases this
    · simp [hac, hr]

theorem tblFind_mem {K V : Type} [DecidableEq K] {t : Tbl K V} {k : K} {v : V}
    (h : tblFind t k = some v) : (k, v) ∈ t := by
  induction t with
  | nil => cases h
  | cons p r ih =>
    obtain ⟨a, w⟩ := p
    by_cases ha : a = k
    · subst ha
      rw [tblFind, if_pos rfl] at h
      injection h with h
      subst h
      exact List.mem_cons_self _ _
    · rw [tblFind, if_neg ha] at h
      exact List.mem_cons_of_mem _ (ih h)

theorem acctPres_trans {s s₁ s₂ : State} (h1 : acctPres s s₁) (h2 : acctPres s₁ s₂) :
    acctPres s s₂ :=
  ⟨fun hn => h2.1 (h1.1 hn), fun ha => h2.2 (h1.2 ha)⟩

theorem sea_trans {s s₁ s₂ : State} (h1 : sameExceptAccounts s s₁)
    (h2 : sameExceptAccounts s₁ s₂) : sameExceptAccounts s s₂ :=
  ⟨h2.1.trans h1.1, h2.2.1.trans h1.2.1, h2.2.2.1.trans h1.2.2.1,
   h2.2.2.2.1.trans h1.2.2.2.1, h2.2.2.2.2.1.trans h1.2.2.2.2.1,
   h2.2.2.2.2.2.1.trans h1.2.2.2.2.2.1, h2.2.2.2.2.2.2.trans h1.2.2.2.2.2.2⟩

/-! ### Balance-engine effect lemmas -/

theorem do_claim_effect {owner : Name} {symC : Nat} {s s' : State}
    (h : do_claim owner symC s = .ok s') :
    sameExceptAccounts s s' ∧ acctPres s s' ∧
    (∀ c, balSum s'.accounts c = balSum s.accounts c) := by
  unfold do_claim at h
  split at h
  · exact absurd h (by simp)
  · split at h
    · exact absurd h (by simp)
    · rename_i row hf
      split at h
      · injection h with h
        subst h
        exact ⟨⟨rfl, rfl, rfl, rfl, rfl, rfl, rfl⟩, ⟨fun hn => hn, fun ha => ha⟩,
          fun _ => rfl⟩
      · split at h
        · exact absurd h (by simp)
        · rename_i hnone
          split at h
          · exact absurd h (by simp)
          · rename_i t ht
            obtain ⟨-, ht2⟩ := tblEmplace_ok ht
            subst ht2
            injection h with h
            subst h
            refine ⟨⟨rfl, rfl, rfl, rfl, rfl, rfl, rfl⟩, ⟨?_, ?_⟩, ?_⟩
            · intro hn
              exact keysNodup_cons (keysNodup_erase hn _) hnone
            · intro hall p hp
              rcases List.mem_cons.mp hp with hp | hp
              · subst hp
                have hold := hall _ (tblFind_mem hf)
                exact ⟨hold.1, hold.2.1, hold.2.2⟩
              · exact hall p (mem_tblErase hp)
            · intro c
              rw [balSum_cons, balSum_erase hf]
              dsimp only
              omega

theorem sub_balance_effect {owner : Name} {value : Asset} {s s' : State}
    (h : sub_balance owner value s = .ok s') :
    sameExceptAccounts s s' ∧ acctPres s s' ∧
    (∀ c, balSum s'.accounts c =
      balSum s.accounts c - (if value.sym.code = c then value.amount else 0)) ∧
    (∃ row, tblFind s.accounts (owner, value.sym.code) = some row ∧
      value.amount ≤ row.balance.amount) := by
  unfold sub_balance at h
  split at h
  · exact absurd h (by simp)
  · rename_i row hf
    split at h
    · exact absurd h (by simp)
    · rename_i hlt
      split at h
      · exact absurd h (by simp)
      · rename_i b hs
        obtain ⟨hsym, hb⟩ := subA_ok hs
        subst hb
        injection h with h
        subst h
        refine ⟨⟨rfl, rfl, rfl, rfl, rfl, rfl, rfl⟩, ⟨?_, ?_⟩, ?_, row, hf, by omega⟩
        · intro hn
          exact keysNodup_modify hn _ _
        · intro hall p hp
          rcases mem_tblModify hp with hp | ⟨w, hw, hp⟩
          · exact hall p hp
          · subst hp
            have hbits := hall _ (tblFind_mem hw)
            rw [hf] at hw
            injection hw with hw
            subst hw
            refine ⟨by dsimp only; omega, hbits.2.1, hbits.2.2⟩
        · intro c
          rw [balSum_modify hf _ c]
          dsimp only
          omega

theorem add_balance_effect {owner : Name} {value : Asset} {claimed : Bool}
    {s s' : State} (h : add_balance owner value claimed s = .ok s')
    (hv : 0 ≤ value.amount)
    (hst : (tblFind s.stats value.sym.code).isSome = true) :
    sameExceptAccounts s s' ∧ acctPres s s' ∧
    (∀ c, balSum s'.accounts c =
      balSum s.accounts c + (if value.sym.code = c then value.amount else 0)) := by
  unfold add_balance at h
  split at h
  · rename_i hf
    split at h
    · exact absurd h (by simp)
    · rename_i t ht
      obtain ⟨-, ht2⟩ := tblEmplace_ok ht
      subst ht2
      injection h with h
      subst h
      refine ⟨⟨rfl, rfl, rfl, rfl, rfl, rfl, rfl⟩, ⟨?_, ?_⟩, ?_⟩
      · intro hn
        exact keysNodup_cons hn hf
      · intro hall p hp
        rcases List.mem_cons.mp hp with hp | hp
        · subst hp
          exact ⟨hv, hst, rfl⟩
        · exact hall p hp
      · intro c
        rw [balSum_cons]
        dsimp only
        omega
  · rename_i row hf
    split at h
    · exact absurd h (by simp)
    · rename_i b hs
      obtain ⟨hsym, hb⟩ := addA_ok hs
      subst hb
      injection h with h
      subst h
      refine ⟨⟨rfl, rfl, rfl, rfl, rfl, rfl, rfl⟩, ⟨?_, ?_⟩, ?_⟩
      · intro hn
        exact keysNodup_modify hn _ _
      · intro hall p hp
        rcases mem_tblModify hp with hp | ⟨w, hw, hp⟩
        · exact hall p hp
        · subst hp
          have hbits := hall _ (tblFind_mem hw)
          rw [hf] at hw
          injection hw with hw
          subst hw
          have hb0 : (0 : Int) ≤ row.balance.amount := hbits.1
          have hco : row.balance.sym.code = value.sym.code := hbits.2.2
          refine ⟨by dsimp only; omega, hbits.2.1, by dsimp only; exact hco⟩
      · intro c
        rw [balSum_modify hf _ c]
        dsimp only
        omega

theorem transferOp_effect {env : Env} {frm dst : Name} {q : Asset} {memo : String}
    {hat : Bool} {s s' : State} (h : transferOp env frm dst q memo hat s = .ok s') :
    sameExceptAccounts s s' ∧ acctPres s s' ∧
    (∀ c, balSum s'.accounts c = balSum s.accounts c) := by
  unfold transferOp at h
  split at h
  · exact absurd h (by simp)
  · split at h
    · exact absurd h (by simp)
    · split at h
      · exact absurd h (by simp)
      · rename_i st hf
        split at h
        · exact absurd h (by simp)
        · split at h
          · exact absurd h (by simp)
          · split at h
            · exact absurd h (by simp)
            · split at h
              · exact absurd h (by simp)
              · rename_i hval hpos hsym hmemo
                split at h
                · exact absurd h (by simp)
                · rename_i s₁ h1
                  split at h
                  · exact absurd h (by simp)
                  · rename_i s₂ h2
                    split at h
                    · exact absurd h (by simp)
                    · rename_i s₃ h3
                      obtain ⟨sea1, ap1, hb1⟩ := do_claim_effect h1
                      obtain ⟨sea2, ap2, hb2, -⟩ := sub_balance_effect h2
                      have hst2 : (tblFind s₂.stats q.sym.code).isSome = true := by
                        rw [sea2.1, sea1.1, hf]
                        rfl
                      obtain ⟨sea3, ap3, hb3⟩ :=
                        add_balance_effect h3 (by omega) hst2
                      have hcomp : sameExceptAccounts s s₃ ∧ acctPres s s₃ ∧
                          (∀ c, balSum s₃.accounts c = balSum s.accounts c) := by
                        refine ⟨sea_trans (sea_trans sea1 sea2) sea3,
                          acctPres_trans (acctPres_trans ap1 ap2) ap3, ?_⟩
                        intro c
                        have := hb1 c
                        have := hb2 c
                        have := hb3 c
                        omega
                      split at h
                      · obtain ⟨sea4, ap4, hb4⟩ := do_claim_effect h
                        refine ⟨sea_trans hcomp.1 sea4,
                          acctPres_trans hcomp.2.1 ap4, ?_⟩
                        intro c
                        have := hcomp.2.2 c
                        have := hb4 c
                        omega
                      · injection h with h
                        subst h
                        exact hcomp

theorem tblFind_cons_isSome {K V : Type} [DecidableEq K] {t : Tbl K V} {k k' : K}
    {v : V} (h : (tblFind t k').isSome = true) :
    (tblFind ((k, v) :: t) k').isSome = true := by
  by_cases hk : k = k' <;> simp [tblFind, hk, h]

theorem tblFind_modify_isSome {K V : Type} [DecidableEq K] {t : Tbl K V} {k k' : K}
    {f : V → V} (h : (tblFind t k').isSome = true) :
    (tblFind (tblModify t k f) k').isSome = true := by
  by_cases hk : k' = k
  · subst hk
    rw [tblFind_modify_self]
    rcases hx : tblFind t k' with _ | v
    · rw [hx] at h
      simp at h
    · rfl
  · rw [tblFind_modify_ne _ _ _ _ hk]
    exact h

theorem mem_tblModify_nodup {K V : Type} [DecidableEq K] {t : Tbl K V} {k : K}
    {f : V → V} {p : K × V} (hn : keysNodup t) (hp : p ∈ tblModify t k f) :
    (p ∈ t ∧ p.1 ≠ k) ∨ ∃ v, tblFind t k = some v ∧ p = (k, f v) := by
  induction t with
  | nil => cases hp
  | cons q r ih =>
    obtain ⟨a, w⟩ := q
    obtain ⟨hna, hnr⟩ := List.nodup_cons.mp hn
    by_cases ha : a = k
    · subst ha
      have hm : tblModify ((a, w) :: r) a f = (a, f w) :: r := by
        simp [tblModify]
      rw [hm, List.mem_cons] at hp
      cases hp with
      | inl h1 =>
        refine Or.inr ⟨w, ?_, h1⟩
        simp [tblFind]
      | inr h2 =>
        refine Or.inl ⟨List.mem_cons_of_mem _ h2, ?_⟩
        intro hpk
        exact hna (List.mem_map.mpr ⟨p, h2, hpk⟩)
    · have hm : tblModify ((a, w) :: r) k f = (a, w) :: tblModify r k f := by
        simp [tblModify, ha]
      rw [hm, List.mem_cons] at hp
      cases hp with
      | inl h1 =>
        refine Or.inl ⟨h1 ▸ List.mem_cons_self _ _, ?_⟩
        rw [h1]
        exact ha
      | inr h2 =>
        rcases ih hnr h2 with ⟨h3, h4⟩ | ⟨v, hv, hpv⟩
        · exact Or.inl ⟨List.mem_cons_of_mem _ h3, h4⟩
        · refine Or.inr ⟨v, ?_, hpv⟩
          rw [tblFind, if_neg ha]
          exact hv

/-! ### Invariant preservation -/

theorem inv_init : Inv initState := by
  refine ⟨?_, ?_, ?_, ?_, ?_, ?_, ?_, ?_, ?_, ?_, ?_⟩ <;>
    first
      | exact List.nodup_nil
      | (intro p hp; cases hp)

theorem inv_of_balanceOnly {s s' : State} (inv : Inv s)
    (sea : sameExceptAccounts s s') (ap : acctPres s s')
    (hb : ∀ c, balSum s'.accounts c = balSum s.accounts c) : Inv s' := by
  refine ⟨?_, ap.1 inv.ndAccounts, ?_, ?_, ?_, ?_, ?_, ?_, ap.2 inv.acctOk, ?_, ?_⟩
  · rw [sea.1]; exact inv.ndStats
  · rw [sea.2.1]; exact inv.ndVesting
  · rw [sea.2.2.1]; exact inv.ndUtxos
  · rw [sea.2.2.2.2.1]; exact inv.ndStakes
  · rw [sea.2.2.2.2.2.1]; exact inv.ndDividends
  · rw [sea.2.2.2.2.2.2]; exact inv.ndRefunds
  · intro p hp
    rw [sea.1] at hp
    have h0 := inv.statsOk p hp
    exact ⟨h0.1, h0.2.1, by rw [hb p.1]; exact h0.2.2⟩
  · intro p hp
    rw [sea.2.2.1] at hp
    rw [sea.2.2.2.1]
    exact inv.utxoOk p hp
  · intro p hp
    rw [sea.2.2.2.2.1] at hp
    rw [sea.2.2.2.2.2.1]
    exact inv.stakeOk p hp

theorem inv_transferOp {env : Env} {frm dst : Name} {q : Asset} {memo : String}
    {hat : Bool} {s s' : State} (inv : Inv s)
    (h : transferOp env frm dst q memo hat s = .ok s') : Inv s' := by
  obtain ⟨sea, ap, hb⟩ := transferOp_effect h
  exact inv_of_balanceOnly inv sea ap hb

theorem inv_claimOp {owner : Name} {symC : Nat} {s s' : State} (inv : Inv s)
    (h : claimOp owner symC s = .ok s') : Inv s' := by
  obtain ⟨sea, ap, hb⟩ := do_claim_effect h
  exact inv_of_balanceOnly inv sea ap hb

theorem inv_createOp {issuer : Name} {m : Asset} {s s' : State} (inv : Inv s)
    (h : createOp issuer m s = .ok s') : Inv s' := by
  unfold createOp at h
  split at h
  · exact absurd h (by simp)
  split at h
  · exact absurd h (by simp)
  split at h
  · exact absurd h (by simp)
  rename_i hv hviv hpos
  split at h
  · exact absurd h (by simp)
  rename_i hf
  split at h
  · exact absurd h (by simp)
  rename_i t ht
  obtain ⟨-, ht2⟩ := tblEmplace_ok ht
  subst ht2
  injection h with h
  subst h
  refine ⟨keysNodup_cons inv.ndStats hf, inv.ndAccounts, inv.ndVesting, inv.ndUtxos,
    inv.ndStakes, inv.ndDividends, inv.ndRefunds, ?_, ?_, inv.utxoOk, inv.stakeOk⟩
  · intro p hp
    rcases List.mem_cons.mp hp with hp | hp
    · subst hp
      have hz : balSum s.accounts m.sym.code = 0 :=
        balSum_zero_of_absent (fun q hq => (inv.acctOk q hq).2.1) hf
      refine ⟨le_refl 0, by dsimp only; omega, ?_⟩
      dsimp only
      omega
    · have h0 := inv.statsOk p hp
      exact ⟨h0.1, h0.2.1, h0.2.2⟩
  · intro p hp
    have h0 := inv.acctOk p hp
    exact ⟨h0.1, tblFind_cons_isSome h0.2.1, h0.2.2⟩

theorem inv_updateOp {issuer : Name} {m : Asset} {s s' : State} (inv : Inv s)
    (h : updateOp issuer m s = .ok s') : Inv s' := by
  unfold updateOp at h
  split at h
  · exact absurd h (by simp)
  split at h
  · exact absurd h (by simp)
  split at h
  · exact absurd h (by simp)
  split at h
  · exact absurd h (by simp)
  rename_i st hf
  split at h
  · exact absurd h (by simp)
  rename_i hsup
  split at h
  · exact absurd h (by simp)
  injection h with h
  subst h
  refine ⟨keysNodup_modify inv.ndStats _ _, inv.ndAccounts, inv.ndVesting, inv.ndUtxos,
    inv.ndStakes, inv.ndDividends, inv.ndRefunds, ?_, ?_, inv.utxoOk, inv.stakeOk⟩
  · intro p hp
    rcases mem_tblModify hp with hp | ⟨v, hv, hpv⟩
    · exact inv.statsOk p hp
    · subst hpv
      rw [hf] at hv
      injection hv with hv
      subst hv
      have h0 := inv.statsOk _ (tblFind_mem hf)
      exact ⟨h0.1, by dsimp only; omega, h0.2.2⟩
  · intro p hp
    have h0 := inv.acctOk p hp
    exact ⟨h0.1, tblFind_modify_isSome h0.2.1, h0.2.2⟩

theorem inv_openOp {owner : Name} {sym : Sym} {s s' : State} (inv : Inv s)
    (h : openOp owner sym s = .ok s') : Inv s' := by
  unfold openOp at h
  split at h
  · exact absurd h (by simp)
  rename_i st hf
  split at h
  · exact absurd h (by simp)
  split at h
  · injection h with h
    subst h
    exact inv
  rename_i hnone
  split at h
  · exact absurd h (by simp)
  rename_i t ht
  obtain ⟨-, ht2⟩ := tblEmplace_ok ht
  subst ht2
  injection h with h
  subst h
  have hb : ∀ c, balSum (((owner, sym.code), ⟨⟨0, sym⟩, true⟩) :: s.accounts) c =
      balSum s.accounts c := by
    intro c
    rw [balSum_cons]
    dsimp only
    simp
  refine ⟨inv.ndStats, keysNodup_cons inv.ndAccounts hnone, inv.ndVesting, inv.ndUtxos,
    inv.ndStakes, inv.ndDividends, inv.ndRefunds, ?_, ?_, inv.utxoOk, inv.stakeOk⟩
  · intro p hp
    have h0 := inv.statsOk p hp
    exact ⟨h0.1, h0.2.1, by rw [hb p.1]; exact h0.2.2⟩
  · intro p hp
    rcases List.mem_cons.mp hp with hp | hp
    · subst hp
      refine ⟨le_refl 0, by rw [hf]; rfl, rfl⟩
    · exact inv.acctOk p hp

theorem inv_closeOp {owner : Name} {sym : Sym} {s s' : State} (inv : Inv s)
    (h : closeOp owner sym s = .ok s') : Inv s' := by
  unfold closeOp at h
  split at h
  · exact absurd h (by simp)
  rename_i row hf
  split at h
  · exact absurd h (by simp)
  rename_i hz
  injection h with h
  subst h
  have hz0 : row.balance.amount = 0 := by omega
  have hb : ∀ c, balSum (tblErase s.accounts (owner, sym.code)) c =
      balSum s.accounts c := by
    intro c
    rw [balSum_erase hf, hz0]
    simp
  refine ⟨inv.ndStats, keysNodup_erase inv.ndAccounts _, inv.ndVesting, inv.ndUtxos,
    inv.ndStakes, inv.ndDividends, inv.ndRefunds, ?_, ?_, inv.utxoOk, inv.stakeOk⟩
  · intro p hp
    have h0 := inv.statsOk p hp
    exact ⟨h0.1, h0.2.1, by rw [hb p.1]; exact h0.2.2⟩
  · intro p hp
    exact inv.acctOk p (mem_tblErase hp)

theorem inv_retireOp {q : Asset} {memo : String} {s s' : State} (inv : Inv s)
    (h : retireOp q memo s = .ok s') : Inv s' := by
  unfold retireOp at h
  split at h
  · exact absurd h (by simp)
  split at h
  · exact absurd h (by simp)
  split at h
  · exact absurd h (by simp)
  rename_i st hf
  split at h
  · exact absurd h (by simp)
  split at h
  · exact absurd h (by simp)
  split at h
  · exact absurd h (by simp)
  rename_i hval hpos hsym
  split at h
  · exact absurd h (by simp)
  rename_i sup hsubA
  obtain ⟨hsym2, hsup⟩ := subA_ok hsubA
  subst hsup
  obtain ⟨sea, ap, hb, row, hrow, hrowge⟩ := sub_balance_effect h
  dsimp only at hb hrow
  have hstmem := inv.statsOk _ (tblFind_mem hf)
  dsimp only at hstmem
  have hlow : row.balance.amount ≤ balSum s.accounts q.sym.code :=
    balSum_lower hrow (fun p hp => (inv.acctOk p hp).1) _ rfl
  refine ⟨?_, ap.1 inv.ndAccounts, ?_, ?_, ?_, ?_, ?_, ?_, ?_, ?_, ?_⟩
  · rw [sea.1]; exact keysNodup_modify inv.ndStats _ _
  · rw [sea.2.1]; exact inv.ndVesting
  · rw [sea.2.2.1]; exact inv.ndUtxos
  · rw [sea.2.2.2.2.1]; exact inv.ndStakes
  · rw [sea.2.2.2.2.2.1]; exact inv.ndDividends
  · rw [sea.2.2.2.2.2.2]; exact inv.ndRefunds
  · intro p hp
    rw [sea.1] at hp
    rcases mem_tblModify_nodup inv.ndStats hp with ⟨hp, hpk⟩ | ⟨v, hv, hpv⟩
    · have h0 := inv.statsOk p hp
      refine ⟨h0.1, h0.2.1, ?_⟩
      have hbp := hb p.1
      rw [if_neg (fun hh => hpk hh.symm)] at hbp
      omega
    · subst hpv
      rw [hf] at hv
      injection hv with hv
      subst hv
      have hbp := hb q.sym.code
      rw [if_pos rfl] at hbp
      refine ⟨by dsimp only; omega, by dsimp only; omega, ?_⟩
      dsimp only
      omega
  · refine ap.2 ?_
    intro p hp
    have h0 := inv.acctOk p hp
    exact ⟨h0.1, tblFind_modify_isSome h0.2.1, h0.2.2⟩
  · intro p hp
    rw [sea.2.2.1] at hp
    rw [sea.2.2.2.1]
    exact inv.utxoOk p hp
  · intro p hp
    rw [sea.2.2.2.2.1] at hp
    rw [sea.2.2.2.2.2.1]
    exact inv.stakeOk p hp

theorem add_balance_find {owner : Name} {value : Asset} {claimed : Bool}
    {s s' : State} (h : add_balance owner value claimed s = .ok s') :
    (∀ k, k ≠ (owner, value.sym.code) → tblFind s'.accounts k = tblFind s.accounts k) ∧
    (tblFind s.accounts (owner, value.sym.code) = none →
      tblFind s'.accounts (owner, value.sym.code) = some ⟨value, claimed⟩) ∧
    (∀ prev, tblFind s.accounts (owner, value.sym.code) = some prev →
      tblFind s'.accounts (owner, value.sym.code) =
        some ⟨⟨prev.balance.amount + value.amount, prev.balance.sym⟩, prev.claimed⟩) := by
  unfold add_balance at h
  split at h
  · rename_i hf
    split at h
    · exact absurd h (by simp)
    · rename_i t ht
      obtain ⟨-, ht2⟩ := tblEmplace_ok ht
      subst ht2
      injection h with h
      subst h
      refine ⟨?_, ?_, ?_⟩
      · intro k hk
        rw [tblFind, if_neg (fun hh => hk hh.symm)]
      · intro _
        rw [tblFind, if_pos rfl]
      · intro prev hprev
        rw [hf] at hprev
        cases hprev
  · rename_i row hf
    split at h
    · exact absurd h (by simp)
    · rename_i b hs
      obtain ⟨hsym, hbv⟩ := addA_ok hs
      subst hbv
      injection h with h
      subst h
      refine ⟨?_, ?_, ?_⟩
      · intro k hk
        exact tblFind_modify_ne _ _ _ _ hk
      · intro hnone
        rw [hf] at hnone
        cases hnone
      · intro prev hprev
        rw [hf] at hprev
        injection hprev with hprev
        subst hprev
        rw [tblFind_modify_self, hf]
        rfl

theorem sub_balance_find {owner : Name} {value : Asset} {s s' : State}
    (h : sub_balance owner value s = .ok s') :
    (∀ k, k ≠ (owner, value.sym.code) → tblFind s'.accounts k = tblFind s.accounts k) ∧
    (∃ row, tblFind s.accounts (owner, value.sym.code) = some row ∧
      tblFind s'.accounts (owner, value.sym.code) =
        some ⟨⟨row.balance.amount - value.amount, row.balance.sym⟩, true⟩) := by
  unfold sub_balance at h
  split at h
  · exact absurd h (by simp)
  · rename_i row hf
    split at h
    · exact absurd h (by simp)
    · split at h
      · exact absurd h (by simp)
      · rename_i b hs
        obtain ⟨hsym, hbv⟩ := subA_ok hs
        subst hbv
        injection h with h
        subst h
        refine ⟨?_, row, hf, ?_⟩
        · intro k hk
          exact tblFind_modify_ne _ _ _ _ hk
        · rw [tblFind_modify_self, hf]
          rfl

theorem do_claim_find {owner : Name} {symC : Nat} {s s' : State}
    (h : do_claim owner symC s = .ok s') :
    ∀ k, (tblFind s'.accounts k).map AccountRow.balance =
      (tblFind s.accounts k).map AccountRow.balance := by
  unfold do_claim at h
  split at h
  · exact absurd h (by simp)
  · split at h
    · exact absurd h (by simp)
    · rename_i row hf
      split at h
      · injection h with h
        subst h
        intro k
        rfl
      · split at h
        · exact absurd h (by simp)
        · rename_i hnone
          split at h
          · exact absurd h (by simp)
          · rename_i t ht
            obtain ⟨-, ht2⟩ := tblEmplace_ok ht
            subst ht2
            injection h with h
            subst h
            intro k
            by_cases hk : k = (owner, symC)
            · subst hk
              rw [tblFind, if_pos rfl, hf]
              rfl
            · rw [tblFind, if_neg (fun hh => hk hh.symm),
                tblFind_erase_ne _ _ _ hk]

theorem inv_recoverOp {owner : Name} {symC : Nat} {s s' : State} (inv : Inv s)
    (h : recoverOp owner symC s = .ok s') : Inv s' := by
  unfold recoverOp at h
  split at h
  · exact absurd h (by simp)
  split at h
  · exact absurd h (by simp)
  rename_i st hf
  split at h
  · injection h with h
    subst h
    exact inv
  rename_i row hacc
  split at h
  · injection h with h
    subst h
    exact inv
  rename_i hclaimed
  split at h
  · exact absurd h (by simp)
  rename_i s₁ hadd
  injection h with h
  subst h
  have hrowOk := inv.acctOk _ (tblFind_mem hacc)
  have hrow0 : 0 ≤ row.balance.amount := hrowOk.1
  have hrowco : row.balance.sym.code = symC := hrowOk.2.2
  obtain ⟨sea, ap, hb⟩ :=
    add_balance_effect hadd hrow0 (by rw [hrowco]; exact hrowOk.2.1)
  obtain ⟨hne, hemp, hmod⟩ := add_balance_find hadd
  -- value of the row at (owner, symC) in s₁
  have hfind1 : ∃ v₁, tblFind s₁.accounts (owner, symC) = some v₁ ∧
      row.balance.amount ≤ v₁.balance.amount := by
    by_cases hk : (owner, symC) = (st.issuer, row.balance.sym.code)
    · refine ⟨⟨⟨row.balance.amount + row.balance.amount, row.balance.sym⟩,
        row.claimed⟩, ?_, by dsimp only; omega⟩
      rw [hk]
      exact hmod row (by rw [← hk]; exact hacc)
    · refine ⟨row, ?_, le_refl _⟩
      rw [hne _ hk]
      exact hacc
  obtain ⟨v₁, hv₁, hv₁ge⟩ := hfind1
  have hb' : ∀ c, balSum (tblErase s₁.accounts (owner, symC)) c ≤ balSum s.accounts c := by
    intro c
    rw [balSum_erase hv₁]
    have hbc := hb c
    rw [hrowco] at hbc
    dsimp only
    by_cases hc : symC = c
    · rw [if_pos hc] at hbc ⊢
      omega
    · rw [if_neg hc] at hbc ⊢
      omega
  refine ⟨?_, keysNodup_erase (ap.1 inv.ndAccounts) _, ?_, ?_, ?_, ?_, ?_, ?_, ?_, ?_, ?_⟩
  · rw [sea.1]; exact inv.ndStats
  · rw [sea.2.1]; exact inv.ndVesting
  · rw [sea.2.2.1]; exact inv.ndUtxos
  · rw [sea.2.2.2.2.1]; exact inv.ndStakes
  · rw [sea.2.2.2.2.2.1]; exact inv.ndDividends
  · rw [sea.2.2.2.2.2.2]; exact inv.ndRefunds
  · intro p hp
    rw [sea.1] at hp
    have h0 := inv.statsOk p hp
    refine ⟨h0.1, h0.2.1, ?_⟩
    have := hb' p.1
    dsimp only
    omega
  · intro p hp
    have hmem : p ∈ s₁.accounts := mem_tblErase hp
    have := ap.2 inv.acctOk p hmem
    exact this
  · intro p hp
    rw [sea.2.2.1] at hp
    rw [sea.2.2.2.1]
    exact inv.utxoOk p hp
  · intro p hp
    rw [sea.2.2.2.2.1] at hp
    rw [sea.2.2.2.2.2.1]
    exact inv.stakeOk p hp

theorem vestingUpdate_effect {account : Name} {q : Asset} {s s' : State}
    (h : vestingUpdate account q s = .ok s') :
    s'.stats = s.stats ∧ s'.accounts = s.accounts ∧ s'.utxos = s.utxos ∧
    s'.utxoGlobal = s.utxoGlobal ∧ s'.stakes = s.stakes ∧
    s'.dividends = s.dividends ∧ s'.refunds = s.refunds ∧
    (keysNodup s.vesting → keysNodup s'.vesting) := by
  unfold vestingUpdate at h
  split at h
  · split at h
    · split at h
      · exact absurd h (by simp)
      · injection h with h
        subst h
        exact ⟨rfl, rfl, rfl, rfl, rfl, rfl, rfl,
          fun hn => keysNodup_modify hn _ _⟩
    · split at h
      · exact absurd h (by simp)
      · rename_i t ht
        obtain ⟨hfn, ht2⟩ := tblEmplace_ok ht
        subst ht2
        injection h with h
        subst h
        exact ⟨rfl, rfl, rfl, rfl, rfl, rfl, rfl,
          fun hn => keysNodup_cons hn hfn⟩
  · injection h with h
    subst h
    exact ⟨rfl, rfl, rfl, rfl, rfl, rfl, rfl, fun hn => hn⟩

theorem validate_vesting_effect {now : Nat} {account : Name} {q : Asset}
    {s s' : State} (h : validate_peos_team_vesting now account q s = .ok s') :
    s'.stats = s.stats ∧ s'.accounts = s.accounts ∧ s'.utxos = s.utxos ∧
    s'.utxoGlobal = s.utxoGlobal ∧ s'.stakes = s.stakes ∧
    s'.dividends = s.dividends ∧ s'.refunds = s.refunds ∧
    (keysNodup s.vesting → keysNodup s'.vesting) := by
  unfold validate_peos_team_vesting at h
  split at h
  · exact absurd h (by simp)
  · rename_i s₁ hvu
    have hs' : s' = s₁ := by
      split at h
      · split at h
        · injection h with h
          exact h.symm
        · exact absurd h (by simp)
      · split at h
        · split at h
          · injection h with h
            exact h.symm
          · exact absurd h (by simp)
        · split at h
          · split at h
            · injection h with h
              exact h.symm
            · exact absurd h (by simp)
          · exact absurd h (by simp)
    subst hs'
    exact vestingUpdate_effect hvu

theorem inv_issueCore {env : Env} {dst : Name} {q : Asset} {memo : String}
    {s s' : State} (inv : Inv s) (h : issueCore env dst q memo s = .ok s') :
    Inv s' := by
  unfold issueCore at h
  split at h
  · exact absurd h (by simp)
  split at h
  · exact absurd h (by simp)
  split at h
  · exact absurd h (by simp)
  rename_i st hf
  split at h
  · exact absurd h (by simp)
  split at h
  · exact absurd h (by simp)
  split at h
  · exact absurd h (by simp)
  split at h
  · exact absurd h (by simp)
  rename_i hval hpos hsym hsupply
  split at h
  · exact absurd h (by simp)
  rename_i sup haddA
  obtain ⟨-, hsupv⟩ := addA_ok haddA
  subst hsupv
  split at h
  · exact absurd h (by simp)
  rename_i s₂ hab
  have hstmem := inv.statsOk _ (tblFind_mem hf)
  dsimp only at hstmem
  have hst0 : (tblFind (tblModify s.stats q.sym.code
      (fun r => { r with supply := ⟨st.supply.amount + q.amount, st.supply.sym⟩ }))
      q.sym.code).isSome = true := by
    rw [tblFind_modify_self, hf]
    rfl
  obtain ⟨sea, ap, hb⟩ := add_balance_effect hab (by omega) hst0
  dsimp only at sea ap hb
  have inv₂ : Inv s₂ := by
    refine ⟨?_, ?_, ?_, ?_, ?_, ?_, ?_, ?_, ?_, ?_, ?_⟩
    · rw [sea.1]
      exact keysNodup_modify inv.ndStats _ _
    · exact ap.1 inv.ndAccounts
    · rw [sea.2.1]; exact inv.ndVesting
    · rw [sea.2.2.1]; exact inv.ndUtxos
    · rw [sea.2.2.2.2.1]; exact inv.ndStakes
    · rw [sea.2.2.2.2.2.1]; exact inv.ndDividends
    · rw [sea.2.2.2.2.2.2]; exact inv.ndRefunds
    · intro p hp
      rw [sea.1] at hp
      rcases mem_tblModify_nodup inv.ndStats hp with ⟨hp, hpk⟩ | ⟨v, hv, hpv⟩
      · have h0 := inv.statsOk p hp
        refine ⟨h0.1, h0.2.1, ?_⟩
        have hbp := hb p.1
        rw [if_neg (fun hh => hpk hh.symm)] at hbp
        omega
      · subst hpv
        rw [hf] at hv
        injection hv with hv
        subst hv
        have hbp := hb q.sym.code
        rw [if_pos rfl] at hbp
        refine ⟨by dsimp only; omega, by dsimp only; omega, ?_⟩
        dsimp only
        omega
    · refine ap.2 ?_
      intro p hp
      have h0 := inv.acctOk p hp
      exact ⟨h0.1, tblFind_modify_isSome h0.2.1, h0.2.2⟩
    · intro p hp
      rw [sea.2.2.1] at hp
      rw [sea.2.2.2.1]
      exact inv.utxoOk p hp
    · intro p hp
      rw [sea.2.2.2.2.1] at hp
      rw [sea.2.2.2.2.2.1]
      exact inv.stakeOk p hp
  split at h
  · exact inv_transferOp inv₂ h
  · injection h with h
    subst h
    exact inv₂

theorem inv_issueOp {env : Env} {dst : Name} {q : Asset} {memo : String}
    {s s' : State} (inv : Inv s) (h : issueOp env dst q memo s = .ok s') :
    Inv s' := by
  unfold issueOp at h
  split at h
  · exact absurd h (by simp)
  rename_i s₁ hcore
  have inv₁ : Inv s₁ := inv_issueCore inv hcore
  obtain ⟨e1, e2, e3, e4, e5, e6, e7, hnd⟩ := validate_vesting_effect h
  refine ⟨?_, ?_, hnd inv₁.ndVesting, ?_, ?_, ?_, ?_, ?_, ?_, ?_, ?_⟩
  · rw [e1]; exact inv₁.ndStats
  · rw [e2]; exact inv₁.ndAccounts
  · rw [e3]; exact inv₁.ndUtxos
  · rw [e5]; exact inv₁.ndStakes
  · rw [e6]; exact inv₁.ndDividends
  · rw [e7]; exact inv₁.ndRefunds
  · intro p hp
    rw [e1] at hp
    have h0 := inv₁.statsOk p hp
    rw [e2]
    exact h0
  · intro p hp
    rw [e2] at hp
    have h0 := inv₁.acctOk p hp
    rw [e1]
    exact h0
  · intro p hp
    rw [e3] at hp
    rw [e4]
    exact inv₁.utxoOk p hp
  · intro p hp
    rw [e5] at hp
    rw [e6]
    exact inv₁.stakeOk p hp

theorem inv_realizeDivSnap {owner : Name} {stk : StakeRow} {div : DividendRow}
    {s : State} (inv : Inv s) : Inv (realizeDivSnap owner stk div s) := by
  refine ⟨inv.ndStats, inv.ndAccounts, inv.ndVesting, inv.ndUtxos,
    keysNodup_modify inv.ndStakes _ _, keysNodup_modify inv.ndDividends _ _,
    inv.ndRefunds, inv.statsOk, inv.acctOk, inv.utxoOk, ?_⟩
  intro p hp
  rcases mem_tblModify hp with hp | ⟨v, hv, hpv⟩
  · exact tblFind_modify_isSome (inv.stakeOk p hp)
  · subst hpv
    exact tblFind_modify_isSome
      (inv.stakeOk ((owner, PEOS_CODE), v) (tblFind_mem hv))

theorem inv_realizedivOp {env : Env} {owner : Name} {s s' : State} (inv : Inv s)
    (h : realizedivOp env owner s = .ok s') : Inv s' := by
  unfold realizedivOp at h
  split at h
  · injection h with h
    subst h
    exact inv
  rename_i stk hstk
  split at h
  · injection h with h
    subst h
    exact inv
  split at h
  · exact absurd h (by simp)
  rename_i div hdiv
  split at h
  · exact inv_transferOp (inv_realizeDivSnap inv) h
  · injection h with h
    subst h
    exact inv_realizeDivSnap inv

theorem stakeDividendUpd_effect {q : Asset} {s : State} {fs : ℚ × State}
    (h : stakeDividendUpd q s = .ok fs) :
    fs.2.stats = s.stats ∧ fs.2.accounts = s.accounts ∧ fs.2.vesting = s.vesting ∧
    fs.2.utxos = s.utxos ∧ fs.2.utxoGlobal = s.utxoGlobal ∧ fs.2.stakes = s.stakes ∧
    fs.2.refunds = s.refunds ∧
    (keysNodup s.dividends → keysNodup fs.2.dividends) ∧
    (tblFind fs.2.dividends q.sym.code).isSome = true ∧
    (∀ c, (tblFind s.dividends c).isSome = true →
      (tblFind fs.2.dividends c).isSome = true) := by
  unfold stakeDividendUpd at h
  split at h
  · rename_i d hd
    split at h
    · exact absurd h (by simp)
    · injection h with h
      subst h
      refine ⟨rfl, rfl, rfl, rfl, rfl, rfl, rfl,
        fun hn => keysNodup_modify hn _ _, ?_, fun c hc => tblFind_modify_isSome hc⟩
      dsimp only
      rw [tblFind_modify_self, hd]
      rfl
  · rename_i hd
    split at h
    · exact absurd h (by simp)
    · rename_i t ht
      obtain ⟨hfn, ht2⟩ := tblEmplace_ok ht
      subst ht2
      injection h with h
      subst h
      refine ⟨rfl, rfl, rfl, rfl, rfl, rfl, rfl,
        fun hn => keysNodup_cons hn hfn, ?_, fun c hc => tblFind_cons_isSome hc⟩
      dsimp only
      rw [tblFind, if_pos rfl]
      rfl

theorem inv_stakeOp {env : Env} {owner : Name} {q : Asset} {s s' : State}
    (inv : Inv s) (h : stakeOp env owner q s = .ok s') : Inv s' := by
  unfold stakeOp at h
  split at h
  · exact absurd h (by simp)
  rename_i st hf
  split at h
  · exact absurd h (by simp)
  split at h
  · exact absurd h (by simp)
  split at h
  · exact absurd h (by simp)
  split at h
  · exact absurd h (by simp)
  rename_i s₁ hrd
  have inv₁ : Inv s₁ := inv_realizedivOp inv hrd
  split at h
  · exact absurd h (by simp)
  rename_i fs hsd
  obtain ⟨e1, e2, e3, e4, e5, e6, e7, hdnd, hdsome, hdmono⟩ :=
    stakeDividendUpd_effect hsd
  have invfs : Inv fs.2 := by
    refine ⟨?_, ?_, ?_, ?_, ?_, hdnd inv₁.ndDividends, ?_, ?_, ?_, ?_, ?_⟩
    · rw [e1]; exact inv₁.ndStats
    · rw [e2]; exact inv₁.ndAccounts
    · rw [e3]; exact inv₁.ndVesting
    · rw [e4]; exact inv₁.ndUtxos
    · rw [e6]; exact inv₁.ndStakes
    · rw [e7]; exact inv₁.ndRefunds
    · intro p hp
      rw [e1] at hp
      rw [e2]
      exact inv₁.statsOk p hp
    · intro p hp
      rw [e2] at hp
      rw [e1]
      exact inv₁.acctOk p hp
    · intro p hp
      rw [e4] at hp
      rw [e5]
      exact inv₁.utxoOk p hp
    · intro p hp
      rw [e6] at hp
      exact hdmono _ (inv₁.stakeOk p hp)
  split at h
  · rename_i stk hstk
    split at h
    · exact absurd h (by simp)
    rename_i q' haddA
    split at h
    · exact absurd h (by simp)
    refine inv_transferOp ?_ h
    refine ⟨invfs.ndStats, invfs.ndAccounts, invfs.ndVesting, invfs.ndUtxos,
      keysNodup_modify invfs.ndStakes _ _, invfs.ndDividends, invfs.ndRefunds,
      invfs.statsOk, invfs.acctOk, invfs.utxoOk, ?_⟩
    intro p hp
    rcases mem_tblModify hp with hp | ⟨v, hv, hpv⟩
    · exact invfs.stakeOk p hp
    · subst hpv
      exact invfs.stakeOk ((owner, q.sym.code), v) (tblFind_mem hv)
  · rename_i hstk
    split at h
    · exact absurd h (by simp)
    rename_i t ht
    obtain ⟨hfn, ht2⟩ := tblEmplace_ok ht
    subst ht2
    refine inv_transferOp ?_ h
    refine ⟨invfs.ndStats, invfs.ndAccounts, invfs.ndVesting, invfs.ndUtxos,
      keysNodup_cons invfs.ndStakes hfn, invfs.ndDividends, invfs.ndRefunds,
      invfs.statsOk, invfs.acctOk, invfs.utxoOk, ?_⟩
    intro p hp
    rcases List.mem_cons.mp hp with hp | hp
    · subst hp
      exact hdsome
    · exact invfs.stakeOk p hp

theorem unstakeRows_effect {owner : Name} {stk : StakeRow} {q0 : Asset}
    {s s' : State} (h : unstakeRows owner stk q0 s = .ok s') :
    s'.stats = s.stats ∧ s'.accounts = s.accounts ∧ s'.vesting = s.vesting ∧
    s'.utxos = s.utxos ∧ s'.utxoGlobal = s.utxoGlobal ∧ s'.dividends = s.dividends ∧
    s'.refunds = s.refunds ∧ (keysNodup s.stakes → keysNodup s'.stakes) ∧
    (∀ p ∈ s'.stakes, p.1 ∈ s.stakes.map Prod.fst) := by
  unfold unstakeRows at h
  split at h
  · injection h with h
    subst h
    refine ⟨rfl, rfl, rfl, rfl, rfl, rfl, rfl, fun hn => keysNodup_erase hn _, ?_⟩
    intro p hp
    exact List.mem_map.mpr ⟨p, mem_tblErase hp, rfl⟩
  · split at h
    · exact absurd h (by simp)
    · injection h with h
      subst h
      refine ⟨rfl, rfl, rfl, rfl, rfl, rfl, rfl, fun hn => keysNodup_modify hn _ _, ?_⟩
      intro p hp
      dsimp only at hp
      rcases mem_tblModify hp with hp | ⟨v, hv, hpv⟩
      · exact List.mem_map.mpr ⟨p, hp, rfl⟩
      · subst hpv
        exact List.mem_map.mpr ⟨_, tblFind_mem hv, rfl⟩

theorem inv_unstakeOp {env : Env} {owner : Name} {q0 : Asset} {s s' : State}
    (inv : Inv s) (h : unstakeOp env owner q0 s = .ok s') : Inv s' := by
  unfold unstakeOp at h
  split at h
  · exact absurd h (by simp)
  rename_i s₁ hrd
  have inv₁ : Inv s₁ := inv_realizedivOp inv hrd
  split at h
  · exact absurd h (by simp)
  rename_i stk hstk
  split at h
  · exact absurd h (by simp)
  split at h
  · exact absurd h (by simp)
  rename_i s₂ hur
  obtain ⟨e1, e2, e3, e4, e5, e6, e7, hsnd, hskeys⟩ := unstakeRows_effect hur
  have inv₂ : Inv s₂ := by
    refine ⟨?_, ?_, ?_, ?_, hsnd inv₁.ndStakes, ?_, ?_, ?_, ?_, ?_, ?_⟩
    · rw [e1]; exact inv₁.ndStats
    · rw [e2]; exact inv₁.ndAccounts
    · rw [e3]; exact inv₁.ndVesting
    · rw [e4]; exact inv₁.ndUtxos
    · rw [e6]; exact inv₁.ndDividends
    · rw [e7]; exact inv₁.ndRefunds
    · intro p hp
      rw [e1] at hp
      rw [e2]
      exact inv₁.statsOk p hp
    · intro p hp
      rw [e2] at hp
      rw [e1]
      exact inv₁.acctOk p hp
    · intro p hp
      rw [e4] at hp
      rw [e5]
      exact inv₁.utxoOk p hp
    · intro p hp
      rw [e6]
      obtain ⟨qq, hq, hq1⟩ := List.mem_map.mp (hskeys p hp)
      rw [← hq1]
      exact inv₁.stakeOk qq hq
  split at h
  · exact absurd h (by simp)
  rename_i st hstat
  split at h
  · exact absurd h (by simp)
  split at h
  · exact absurd h (by simp)
  split at h
  · exact absurd h (by simp)
  split at h
  · exact absurd h (by simp)
  rename_i d hd
  split at h
  · exact absurd h (by simp)
  rename_i ts hsubA
  split at h
  · rename_i r hr
    split at h
    · exact absurd h (by simp)
    rename_i amt haddA
    injection h with h
    subst h
    refine ⟨inv₂.ndStats, inv₂.ndAccounts, inv₂.ndVesting, inv₂.ndUtxos,
      inv₂.ndStakes, keysNodup_modify inv₂.ndDividends _ _,
      keysNodup_modify inv₂.ndRefunds _ _, inv₂.statsOk, inv₂.acctOk,
      inv₂.utxoOk, ?_⟩
    intro p hp
    exact tblFind_modify_isSome (inv₂.stakeOk p hp)
  · rename_i hr
    split at h
    · exact absurd h (by simp)
    rename_i t ht
    obtain ⟨hfn, ht2⟩ := tblEmplace_ok ht
    subst ht2
    injection h with h
    subst h
    refine ⟨inv₂.ndStats, inv₂.ndAccounts, inv₂.ndVesting, inv₂.ndUtxos,
      inv₂.ndStakes, keysNodup_modify inv₂.ndDividends _ _,
      keysNodup_cons inv₂.ndRefunds hfn, inv₂.statsOk, inv₂.acctOk,
      inv₂.utxoOk, ?_⟩
    intro p hp
    exact tblFind_modify_isSome (inv₂.stakeOk p hp)

theorem inv_refundOp {env : Env} {owner : Name} {s s' : State} (inv : Inv s)
    (h : refundOp env owner s = .ok s') : Inv s' := by
  unfold refundOp at h
  split at h
  · exact absurd h (by simp)
  rename_i r hr
  split at h
  · exact absurd h (by simp)
  split at h
  · exact absurd h (by simp)
  rename_i s₁ htr
  injection h with h
  subst h
  have inv₁ : Inv s₁ := inv_transferOp inv htr
  exact ⟨inv₁.ndStats, inv₁.ndAccounts, inv₁.ndVesting, inv₁.ndUtxos,
    inv₁.ndStakes, inv₁.ndDividends, keysNodup_erase inv₁.ndRefunds _,
    inv₁.statsOk, inv₁.acctOk, inv₁.utxoOk, inv₁.stakeOk⟩

theorem inv_distributeOp {env : Env} {owner : Name} {q : Asset} {s s' : State}
    (inv : Inv s) (h : distributeOp env owner q s = .ok s') : Inv s' := by
  unfold distributeOp at h
  split at h
  · exact absurd h (by simp)
  rename_i s₁ htr
  have inv₁ : Inv s₁ := inv_transferOp inv htr
  split at h
  · exact absurd h (by simp)
  split at h
  · exact absurd h (by simp)
  split at h
  · rename_i hd
    split at h
    · exact absurd h (by simp)
    rename_i t ht
    obtain ⟨hfn, ht2⟩ := tblEmplace_ok ht
    subst ht2
    injection h with h
    subst h
    refine ⟨inv₁.ndStats, inv₁.ndAccounts, inv₁.ndVesting, inv₁.ndUtxos,
      inv₁.ndStakes, keysNodup_cons inv₁.ndDividends hfn, inv₁.ndRefunds,
      inv₁.statsOk, inv₁.acctOk, inv₁.utxoOk, ?_⟩
    intro p hp
    exact tblFind_cons_isSome (inv₁.stakeOk p hp)
  · rename_i d hd
    split at h
    · exact absurd h (by simp)
    rename_i unc haddA
    split at h
    · split at h
      · exact absurd h (by simp)
      rename_i td haddA2
      injection h with h
      subst h
      refine ⟨inv₁.ndStats, inv₁.ndAccounts, inv₁.ndVesting, inv₁.ndUtxos,
        inv₁.ndStakes, keysNodup_modify inv₁.ndDividends _ _, inv₁.ndRefunds,
        inv₁.statsOk, inv₁.acctOk, inv₁.utxoOk, ?_⟩
      intro p hp
      exact tblFind_modify_isSome (inv₁.stakeOk p hp)
    · injection h with h
      subst h
      refine ⟨inv₁.ndStats, inv₁.ndAccounts, inv₁.ndVesting, inv₁.ndUtxos,
        inv₁.ndStakes, keysNodup_modify inv₁.ndDividends _ _, inv₁.ndRefunds,
        inv₁.statsOk, inv₁.acctOk, inv₁.utxoOk, ?_⟩
      intro p hp
      exact tblFind_modify_isSome (inv₁.stakeOk p hp)

theorem getNextUTXOId_spec (s : State) :
    (getNextUTXOId s).1 = counterVal s.utxoGlobal ∧
    counterVal (getNextUTXOId s).2.utxoGlobal = counterVal s.utxoGlobal + 1 ∧
    (getNextUTXOId s).2.stats = s.stats ∧ (getNextUTXOId s).2.accounts = s.accounts ∧
    (getNextUTXOId s).2.vesting = s.vesting ∧ (getNextUTXOId s).2.utxos = s.utxos ∧
    (getNextUTXOId s).2.stakes = s.stakes ∧
    (getNextUTXOId s).2.dividends = s.dividends ∧
    (getNextUTXOId s).2.refunds = s.refunds := by
  cases hug : s.utxoGlobal with
  | none => simp [getNextUTXOId, hug, counterVal]
  | some n => simp [getNextUTXOId, hug, counterVal]

theorem inv_loadutxoOp {env : Env} {frm : Name} {pk : Nat} {q : Asset}
    {s s' : State} (inv : Inv s) (h : loadutxoOp env frm pk q s = .ok s') :
    Inv s' := by
  unfold loadutxoOp at h
  split at h
  · exact absurd h (by simp)
  split at h
  · exact absurd h (by simp)
  split at h
  · exact absurd h (by simp)
  rename_i st hf
  split at h
  · exact absurd h (by simp)
  rename_i s₁ htr
  have inv₁ : Inv s₁ := inv_transferOp inv htr
  split at h
  · exact absurd h (by simp)
  rename_i t ht
  obtain ⟨hfn, ht2⟩ := tblEmplace_ok ht
  subst ht2
  injection h with h
  subst h
  obtain ⟨g1, g2, g3, g4, g5, g6, g7, g8, g9⟩ := getNextUTXOId_spec s₁
  refine ⟨?_, ?_, ?_, ?_, ?_, ?_, ?_, ?_, ?_, ?_, ?_⟩
  · rw [g3]; exact inv₁.ndStats
  · rw [g4]; exact inv₁.ndAccounts
  · rw [g5]; exact inv₁.ndVesting
  · refine keysNodup_cons ?_ hfn
    rw [g6]
    exact inv₁.ndUtxos
  · rw [g7]; exact inv₁.ndStakes
  · rw [g8]; exact inv₁.ndDividends
  · rw [g9]; exact inv₁.ndRefunds
  · intro p hp
    rw [g3] at hp
    have h0 := inv₁.statsOk p hp
    rw [g4]
    exact h0
  · intro p hp
    rw [g4] at hp
    have h0 := inv₁.acctOk p hp
    rw [g3]
    exact h0
  · intro p hp
    rw [g2]
    rcases List.mem_cons.mp hp with hp | hp
    · subst hp
      rw [g1]
      omega
    · rw [g6] at hp
      have := inv₁.utxoOk p hp
      omega
  · intro p hp
    rw [g7] at hp
    rw [g8]
    exact inv₁.stakeOk p hp

theorem processInputs_effect {env : Env} {outputs : List Output}
    {inputs : List Input} {s : State} {acc : Asset} {s₁ : State} {acc₁ : Asset}
    (h : processInputs env outputs inputs s acc = .ok (s₁, acc₁)) :
    s₁.stats = s.stats ∧ s₁.accounts = s.accounts ∧ s₁.vesting = s.vesting ∧
    s₁.utxoGlobal = s.utxoGlobal ∧ s₁.stakes = s.stakes ∧
    s₁.dividends = s.dividends ∧ s₁.refunds = s.refunds ∧
    (keysNodup s.utxos → keysNodup s₁.utxos) ∧
    (∀ p ∈ s₁.utxos, p ∈ s.utxos) := by
  induction inputs generalizing s acc with
  | nil =>
    simp only [processInputs] at h
    injection h with h
    rw [Prod.mk.injEq] at h
    obtain ⟨rfl, rfl⟩ := h
    exact ⟨rfl, rfl, rfl, rfl, rfl, rfl, rfl, fun hn => hn, fun p hp => hp⟩
  | cons i rest ih =>
    simp only [processInputs] at h
    split at h
    · exact absurd h (by simp)
    rename_i u hu
    split at h
    · split at h
      · exact absurd h (by simp)
      rename_i acc' haddA
      obtain ⟨f1, f2, f3, f4, f5, f6, f7, fnd, fmem⟩ := ih h
      refine ⟨f1, f2, f3, f4, f5, f6, f7, ?_, ?_⟩
      · intro hn
        exact fnd (keysNodup_erase hn _)
      · intro p hp
        exact mem_tblErase (fmem p hp)
    · exact absurd h (by simp)

theorem processOutputs_effect {env : Env} {payer : Name} {memo : String}
    {outputs : List Output} {s : State} {acc : Asset} {s₂ : State} {acc₂ : Asset}
    (h : processOutputs env payer memo outputs s acc = .ok (s₂, acc₂)) :
    s₂.stats = s.stats ∧ s₂.vesting = s.vesting ∧ s₂.stakes = s.stakes ∧
    s₂.dividends = s.dividends ∧ s₂.refunds = s.refunds ∧
    acctPres s s₂ ∧ (∀ c, balSum s₂.accounts c = balSum s.accounts c) ∧
    counterVal s.utxoGlobal ≤ counterVal s₂.utxoGlobal ∧
    (keysNodup s.utxos → keysNodup s₂.utxos) ∧
    ((∀ p ∈ s.utxos, p.1 < counterVal s.utxoGlobal) →
      ∀ p ∈ s₂.utxos, p.1 < counterVal s₂.utxoGlobal) := by
  induction outputs generalizing s acc with
  | nil =>
    simp only [processOutputs] at h
    injection h with h
    rw [Prod.mk.injEq] at h
    obtain ⟨rfl, rfl⟩ := h
    exact ⟨rfl, rfl, rfl, rfl, rfl, ⟨fun hn => hn, fun ha => ha⟩,
      fun _ => rfl, le_refl _, fun hn => hn, fun hc => hc⟩
  | cons o rest ih =>
    simp only [processOutputs] at h
    split at h
    · exact absurd h (by simp)
    split at h
    · exact absurd h (by simp)
    split at h
    · exact absurd h (by simp)
    split at h
    · exact absurd h (by simp)
    rename_i acc' haddA
    split at h
    · split at h
      · exact absurd h (by simp)
      rename_i sm htr
      obtain ⟨sea, ap, hb⟩ := transferOp_effect htr
      obtain ⟨f1, f2, f3, f4, f5, fap, fb, fcnt, fnd, fcnt2⟩ := ih h
      refine ⟨f1.trans sea.1, f2.trans sea.2.1, f3.trans sea.2.2.2.2.1,
        f4.trans sea.2.2.2.2.2.1, f5.trans sea.2.2.2.2.2.2,
        acctPres_trans ap fap, ?_, ?_, ?_, ?_⟩
      · intro c
        rw [fb c, hb c]
      · rw [sea.2.2.2.1] at fcnt
        exact fcnt
      · intro hn
        refine fnd ?_
        rw [sea.2.2.1]
        exact hn
      · intro hc
        refine fcnt2 ?_
        rw [sea.2.2.1, sea.2.2.2.1]
        exact hc
    · split at h
      · exact absurd h (by simp)
      rename_i t ht
      obtain ⟨hfn, ht2⟩ := tblEmplace_ok ht
      subst ht2
      obtain ⟨g1, g2, g3, g4, g5, g6, g7, g8, g9⟩ := getNextUTXOId_spec s
      obtain ⟨f1, f2, f3, f4, f5, fap, fb, fcnt, fnd, fcnt2⟩ := ih h
      refine ⟨f1.trans g3, f2.trans g5, f3.trans g7, f4.trans g8, f5.trans g9,
        ?_, ?_, ?_, ?_, ?_⟩
      · refine acctPres_trans ?_ fap
        constructor
        · intro hn
          rw [g4]
          exact hn
        · intro ha p hp
          rw [g4] at hp
          have h0 := ha p hp
          rw [g3]
          exact h0
      · intro c
        rw [fb c]
        dsimp only
        rw [g4]
      · dsimp only at fcnt
        omega
      · intro hn
        refine fnd ?_
        dsimp only
        refine keysNodup_cons ?_ hfn
        rw [g6]
        exact hn
      · intro hc
        refine fcnt2 ?_
        dsimp only
        intro p hp
        rw [g2]
        rcases List.mem_cons.mp hp with hp | hp
        · subst hp
          rw [g1]
          omega
        · rw [g6] at hp
          have := hc p hp
          omega

theorem inv_transferutxoOp {env : Env} {payer : Name} {inputs : List Input}
    {outputs : List Output} {memo : String} {s s' : State} (inv : Inv s)
    (h : transferutxoOp env payer inputs outputs memo s = .ok s') : Inv s' := by
  unfold transferutxoOp at h
  split at h
  · exact absurd h (by simp)
  split at h
  · exact absurd h (by simp)
  rename_i s₁ inputSum hpi
  split at h
  · exact absurd h (by simp)
  rename_i s₂ outputSum hpo
  obtain ⟨i1, i2, i3, i4, i5, i6, i7, ind, imem⟩ := processInputs_effect hpi
  obtain ⟨o1, o2, o3, o4, o5, oap, ob, ocnt, ond, ocnt2⟩ := processOutputs_effect hpo
  have inv₂ : Inv s₂ := by
    refine ⟨?_, ?_, ?_, ?_, ?_, ?_, ?_, ?_, ?_, ?_, ?_⟩
    · rw [o1, i1]; exact inv.ndStats
    · refine oap.1 ?_
      rw [i2]
      exact inv.ndAccounts
    · rw [o2, i3]; exact inv.ndVesting
    · refine ond ?_
      exact ind inv.ndUtxos
    · rw [o3, i5]; exact inv.ndStakes
    · rw [o4, i6]; exact inv.ndDividends
    · rw [o5, i7]; exact inv.ndRefunds
    · intro p hp
      rw [o1, i1] at hp
      have h0 := inv.statsOk p hp
      refine ⟨h0.1, h0.2.1, ?_⟩
      rw [ob p.1, i2]
      exact h0.2.2
    · refine oap.2 ?_
      intro p hp
      rw [i2] at hp
      have h0 := inv.acctOk p hp
      rw [i1]
      exact h0
    · refine ocnt2 ?_
      intro p hp
      rw [i4]
      exact inv.utxoOk p (imem p hp)
    · intro p hp
      rw [o3, i5] at hp
      rw [o4, i6]
      exact inv.stakeOk p hp
  split at h
  · exact absurd h (by simp)
  split at h
  · exact absurd h (by simp)
  split at h
  · exact absurd h (by simp)
  split at h
  · exact inv_transferOp inv₂ h
  · injection h with h
    subst h
    exact inv₂

/-- Preservation of `Inv` by every successful action. -/
theorem inv_step {env : Env} {a : Act} {s s' : State} (inv : Inv s)
    (h : exec env a s = .ok s') : Inv s' := by
  cases a with
  | create issuer m => exact inv_createOp inv h
  | update issuer m => exact inv_updateOp inv h
  | issue dst q memo => exact inv_issueOp inv h
  | retire q memo => exact inv_retireOp inv h
  | transfer f d q memo => exact inv_transferOp inv h
  | claim o c => exact inv_claimOp inv h
  | recover o c => exact inv_recoverOp inv h
  | openAcct o sym => exact inv_openOp inv h
  | close o sym => exact inv_closeOp inv h
  | transferutxo p i o m => exact inv_transferutxoOp inv h
  | loadutxo f pk q => exact inv_loadutxoOp inv h
  | stake o q => exact inv_stakeOp inv h
  | unstake o q => exact inv_unstakeOp inv h
  | realizediv o => exact inv_realizedivOp inv h
  | refund o => exact inv_refundOp inv h
  | distribute o q => exact inv_distributeOp inv h

/-- Every reachable state satisfies the invariant. -/
theorem reachable_inv {s : State} (h : Reachable s) : Inv s := by
  induction h with
  | init => exact inv_init
  | step env a _ hexec ih => exact inv_step ih hexec

/-! ### UTXO footprint of every operation -/

theorem utxoStepOk_of_frame {s s' : State} (hu : s'.utxos = s.utxos)
    (hg : s'.utxoGlobal = s.utxoGlobal) : UtxoStepOk s s' := by
  refine ⟨by rw [hg], ?_⟩
  intro p hp
  rw [hu] at hp
  exact Or.inl hp

theorem utxoStepOk_trans {s s₁ s₂ : State} (h1 : UtxoStepOk s s₁)
    (h2 : UtxoStepOk s₁ s₂) : UtxoStepOk s s₂ := by
  refine ⟨le_trans h1.1 h2.1, ?_⟩
  intro p hp
  rcases h2.2 p hp with hp | ⟨h3, h4⟩
  · rcases h1.2 p hp with hp | ⟨h3, h4⟩
    · exact Or.inl hp
    · exact Or.inr ⟨h3, lt_of_lt_of_le h4 h2.1⟩
  · exact Or.inr ⟨le_trans h1.1 h3, h4⟩

theorem transferOp_utxoFrame {env : Env} {f d : Name} {q : Asset} {m : String}
    {hat : Bool} {s s' : State} (h : transferOp env f d q m hat s = .ok s') :
    s'.utxos = s.utxos ∧ s'.utxoGlobal = s.utxoGlobal := by
  have sea := (transferOp_effect h).1
  exact ⟨sea.2.2.1, sea.2.2.2.1⟩

theorem createOp_utxoFrame {i : Name} {m : Asset} {s s' : State}
    (h : createOp i m s = .ok s') :
    s'.utxos = s.utxos ∧ s'.utxoGlobal = s.utxoGlobal := by
  unfold createOp at h
  split at h
  · exact absurd h (by simp)
  split at h
  · exact absurd h (by simp)
  split at h
  · exact absurd h (by simp)
  split at h
  · exact absurd h (by simp)
  split at h
  · exact absurd h (by simp)
  injection h with h
  subst h
  exact ⟨rfl, rfl⟩

theorem updateOp_utxoFrame {i : Name} {m : Asset} {s s' : State}
    (h : updateOp i m s = .ok s') :
    s'.utxos = s.utxos ∧ s'.utxoGlobal = s.utxoGlobal := by
  unfold updateOp at h
  split at h
  · exact absurd h (by simp)
  split at h
  · exact absurd h (by simp)
  split at h
  · exact absurd h (by simp)
  split at h
  · exact absurd h (by simp)
  split at h
  · exact absurd h (by simp)
  split at h
  · exact absurd h (by simp)
  injection h with h
  subst h
  exact ⟨rfl, rfl⟩

theorem openOp_utxoFrame {o : Name} {sym : Sym} {s s' : State}
    (h : openOp o sym s = .ok s') :
    s'.utxos = s.utxos ∧ s'.utxoGlobal = s.utxoGlobal := by
  unfold openOp at h
  split at h
  · exact absurd h (by simp)
  split at h
  · exact absurd h (by simp)
  split at h
  · injection h with h
    subst h
    exact ⟨rfl, rfl⟩
  split at h
  · exact absurd h (by simp)
  injection h with h
  subst h
  exact ⟨rfl, rfl⟩

theorem closeOp_utxoFrame {o : Name} {sym : Sym} {s s' : State}
    (h : closeOp o sym s = .ok s') :
    s'.utxos = s.utxos ∧ s'.utxoGlobal = s.utxoGlobal := by
  unfold closeOp at h
  split at h
  · exact absurd h (by simp)
  split at h
  · exact absurd h (by simp)
  injection h with h
  subst h
  exact ⟨rfl, rfl⟩

theorem do_claim_utxoFrame {o : Name} {c : Nat} {s s' : State}
    (h : do_claim o c s = .ok s') :
    s'.utxos = s.utxos ∧ s'.utxoGlobal = s.utxoGlobal := by
  have sea := (do_claim_effect h).1
  exact ⟨sea.2.2.1, sea.2.2.2.1⟩

theorem add_balance_frame {o : Name} {v : Asset} {cl : Bool} {s s' : State}
    (h : add_balance o v cl s = .ok s') :
    s'.stats = s.stats ∧ s'.vesting = s.vesting ∧ s'.utxos = s.utxos ∧
    s'.utxoGlobal = s.utxoGlobal ∧ s'.stakes = s.stakes ∧
    s'.dividends = s.dividends ∧ s'.refunds = s.refunds := by
  unfold add_balance at h
  split at h
  · split at h
    · exact absurd h (by simp)
    · rename_i t ht
      obtain ⟨-, ht2⟩ := tblEmplace_ok ht
      subst ht2
      injection h with h
      subst h
      exact ⟨rfl, rfl, rfl, rfl, rfl, rfl, rfl⟩
  · split at h
    · exact absurd h (by simp)
    · injection h with h
      subst h
      exact ⟨rfl, rfl, rfl, rfl, rfl, rfl, rfl⟩

theorem recoverOp_utxoFrame {o : Name} {c : Nat} {s s' : State}
    (h : recoverOp o c s = .ok s') :
    s'.utxos = s.utxos ∧ s'.utxoGlobal = s.utxoGlobal := by
  unfold recoverOp at h
  split at h
  · exact absurd h (by simp)
  split at h
  · exact absurd h (by simp)
  split at h
  · injection h with h
    subst h
    exact ⟨rfl, rfl⟩
  split at h
  · injection h with h
    subst h
    exact ⟨rfl, rfl⟩
  split at h
  · exact absurd h (by simp)
  rename_i s₁ hadd
  injection h with h
  subst h
  obtain ⟨-, -, hu, hg, -, -, -⟩ := add_balance_frame hadd
  exact ⟨hu, hg⟩

theorem retireOp_utxoFrame {q : Asset} {m : String} {s s' : State}
    (h : retireOp q m s = .ok s') :
    s'.utxos = s.utxos ∧ s'.utxoGlobal = s.utxoGlobal := by
  unfold retireOp at h
  split at h
  · exact absurd h (by simp)
  split at h
  · exact absurd h (by simp)
  split at h
  · exact absurd h (by simp)
  split at h
  · exact absurd h (by simp)
  split at h
  · exact absurd h (by simp)
  split at h
  · exact absurd h (by simp)
  split at h
  · exact absurd h (by simp)
  have sea := (sub_balance_effect h).1
  exact ⟨sea.2.2.1, sea.2.2.2.1⟩

theorem issueOp_utxoFrame {env : Env} {d : Name} {q : Asset} {m : String}
    {s s' : State} (h : issueOp env d q m s = .ok s') :
    s'.utxos = s.utxos ∧ s'.utxoGlobal = s.utxoGlobal := by
  unfold issueOp at h
  split at h
  · exact absurd h (by simp)
  rename_i s₁ hcore
  obtain ⟨-, -, e3, e4, -, -, -, -⟩ := validate_vesting_effect h
  have hcoreFrame : s₁.utxos = s.utxos ∧ s₁.utxoGlobal = s.utxoGlobal := by
    unfold issueCore at hcore
    split at hcore
    · exact absurd hcore (by simp)
    split at hcore
    · exact absurd hcore (by simp)
    split at hcore
    · exact absurd hcore (by simp)
    split at hcore
    · exact absurd hcore (by simp)
    split at hcore
    · exact absurd hcore (by simp)
    split at hcore
    · exact absurd hcore (by simp)
    split at hcore
    · exact absurd hcore (by simp)
    split at hcore
    · exact absurd hcore (by simp)
    split at hcore
    · exact absurd hcore (by simp)
    rename_i s₂ hab
    obtain ⟨-, -, hu, hg, -, -, -⟩ := add_balance_frame hab
    split at hcore
    · obtain ⟨hu2, hg2⟩ := transferOp_utxoFrame hcore
      exact ⟨hu2.trans hu, hg2.trans hg⟩
    · injection hcore with hcore
      subst hcore
      exact ⟨hu, hg⟩
  exact ⟨e3.trans hcoreFrame.1, e4.trans hcoreFrame.2⟩

theorem realizedivOp_utxoFrame {env : Env} {o : Name} {s s' : State}
    (h : realizedivOp env o s = .ok s') :
    s'.utxos = s.utxos ∧ s'.utxoGlobal = s.utxoGlobal := by
  unfold realizedivOp at h
  split at h
  · injection h with h
    subst h
    exact ⟨rfl, rfl⟩
  split at h
  · injection h with h
    subst h
    exact ⟨rfl, rfl⟩
  split at h
  · exact absurd h (by simp)
  split at h
  · obtain ⟨hu, hg⟩ := transferOp_utxoFrame h
    exact ⟨hu, hg⟩
  · injection h with h
    subst h
    exact ⟨rfl, rfl⟩

theorem stakeOp_utxoFrame {env : Env} {o : Name} {q : Asset} {s s' : State}
    (h : stakeOp env o q s = .ok s') :
    s'.utxos = s.utxos ∧ s'.utxoGlobal = s.utxoGlobal := by
  unfold stakeOp at h
  split at h
  · exact absurd h (by simp)
  split at h
  · exact absurd h (by simp)
  split at h
  · exact absurd h (by simp)
  split at h
  · exact absurd h (by simp)
  split at h
  · exact absurd h (by simp)
  rename_i s₁ hrd
  obtain ⟨hu1, hg1⟩ := realizedivOp_utxoFrame hrd
  split at h
  · exact absurd h (by simp)
  rename_i fs hsd
  obtain ⟨-, -, -, e4, e5, -, -, -, -, -⟩ := stakeDividendUpd_effect hsd
  split at h
  · split at h
    · exact absurd h (by simp)
    split at h
    · exact absurd h (by simp)
    obtain ⟨hu2, hg2⟩ := transferOp_utxoFrame h
    exact ⟨(hu2.trans e4).trans hu1, (hg2.trans e5).trans hg1⟩
  · split at h
    · exact absurd h (by simp)
    obtain ⟨hu2, hg2⟩ := transferOp_utxoFrame h
    exact ⟨(hu2.trans e4).trans hu1, (hg2.trans e5).trans hg1⟩

theorem unstakeOp_utxoFrame {env : Env} {o : Name} {q0 : Asset} {s s' : State}
    (h : unstakeOp env o q0 s = .ok s') :
    s'.utxos = s.utxos ∧ s'.utxoGlobal = s.utxoGlobal := by
  unfold unstakeOp at h
  split at h
  · exact absurd h (by simp)
  rename_i s₁ hrd
  obtain ⟨hu1, hg1⟩ := realizedivOp_utxoFrame hrd
  split at h
  · exact absurd h (by simp)
  split at h
  · exact absurd h (by simp)
  split at h
  · exact absurd h (by simp)
  rename_i s₂ hur
  obtain ⟨-, -, -, e4, e5, -, -, -, -⟩ := unstakeRows_effect hur
  split at h
  · exact absurd h (by simp)
  split at h
  · exact absurd h (by simp)
  split at h
  · exact absurd h (by simp)
  split at h
  · exact absurd h (by simp)
  split at h
  · exact absurd h (by simp)
  split at h
  · exact absurd h (by simp)
  split at h
  · split at h
    · exact absurd h (by simp)
    injection h with h
    subst h
    exact ⟨e4.trans hu1, e5.trans hg1⟩
  · split at h
    · exact absurd h (by simp)
    rename_i t ht
    obtain ⟨-, ht2⟩ := tblEmplace_ok ht
    subst ht2
    injection h with h
    subst h
    exact ⟨e4.trans hu1, e5.trans hg1⟩

theorem refundOp_utxoFrame {env : Env} {o : Name} {s s' : State}
    (h : refundOp env o s = .ok s') :
    s'.utxos = s.utxos ∧ s'.utxoGlobal = s.utxoGlobal := by
  unfold refundOp at h
  split at h
  · exact absurd h (by simp)
  split at h
  · exact absurd h (by simp)
  split at h
  · exact absurd h (by simp)
  rename_i s₁ htr
  obtain ⟨hu, hg⟩ := transferOp_utxoFrame htr
  injection h with h
  subst h
  exact ⟨hu, hg⟩

theorem distributeOp_utxoFrame {env : Env} {o : Name} {q : Asset} {s s' : State}
    (h : distributeOp env o q s = .ok s') :
    s'.utxos = s.utxos ∧ s'.utxoGlobal = s.utxoGlobal := by
  unfold distributeOp at h
  split at h
  · exact absurd h (by simp)
  rename_i s₁ htr
  obtain ⟨hu1, hg1⟩ := transferOp_utxoFrame htr
  split at h
  · exact absurd h (by simp)
  split at h
  · exact absurd h (by simp)
  split at h
  · split at h
    · exact absurd h (by simp)
    rename_i t ht
    obtain ⟨-, ht2⟩ := tblEmplace_ok ht
    subst ht2
    injection h with h
    subst h
    exact ⟨hu1, hg1⟩
  · split at h
    · exact absurd h (by simp)
    split at h
    · split at h
      · exact absurd h (by simp)
      injection h with h
      subst h
      exact ⟨hu1, hg1⟩
    · injection h with h
      subst h
      exact ⟨hu1, hg1⟩

theorem loadutxoOp_utxoStep {env : Env} {f : Name} {pk : Nat} {q : Asset}
    {s s' : State} (h : loadutxoOp env f pk q s = .ok s') : UtxoStepOk s s' := by
  unfold loadutxoOp at h
  split at h
  · exact absurd h (by simp)
  split at h
  · exact absurd h (by simp)
  split at h
  · exact absurd h (by simp)
  split at h
  · exact absurd h (by simp)
  rename_i s₁ htr
  obtain ⟨hu1, hg1⟩ := transferOp_utxoFrame htr
  split at h
  · exact absurd h (by simp)
  rename_i t ht
  obtain ⟨-, ht2⟩ := tblEmplace_ok ht
  subst ht2
  injection h with h
  subst h
  obtain ⟨g1, g2, -, -, -, g6, -, -, -⟩ := getNextUTXOId_spec s₁
  refine ⟨?_, ?_⟩
  · dsimp only
    rw [g2, hg1]
    omega
  · intro p hp
    dsimp only at hp
    rcases List.mem_cons.mp hp with hp | hp
    · subst hp
      refine Or.inr ⟨?_, ?_⟩
      · dsimp only
        rw [g1, hg1]
      · dsimp only
        rw [g2, hg1, g1, hg1]
        omega
    · rw [g6, hu1] at hp
      exact Or.inl hp

theorem processOutputs_utxoStep {env : Env} {payer : Name} {memo : String}
    {outputs : List Output} {s : State} {acc : Asset} {s₂ : State} {acc₂ : Asset}
    (h : processOutputs env payer memo outputs s acc = .ok (s₂, acc₂)) :
    UtxoStepOk s s₂ := by
  induction outputs generalizing s acc with
  | nil =>
    simp only [processOutputs] at h
    injection h with h
    rw [Prod.mk.injEq] at h
    obtain ⟨rfl, rfl⟩ := h
    exact ⟨le_refl _, fun p hp => Or.inl hp⟩
  | cons o rest ih =>
    simp only [processOutputs] at h
    split at h
    · exact absurd h (by simp)
    split at h
    · exact absurd h (by simp)
    split at h
    · exact absurd h (by simp)
    split at h
    · exact absurd h (by simp)
    rename_i acc' haddA
    split at h
    · split at h
      · exact absurd h (by simp)
      rename_i sm htr
      obtain ⟨hu1, hg1⟩ := transferOp_utxoFrame htr
      exact utxoStepOk_trans (utxoStepOk_of_frame hu1 hg1) (ih h)
    · split at h
      · exact absurd h (by simp)
      rename_i t ht
      obtain ⟨hfn, ht2⟩ := tblEmplace_ok ht
      subst ht2
      obtain ⟨g1, g2, -, -, -, g6, -, -, -⟩ := getNextUTXOId_spec s
      refine utxoStepOk_trans ?_ (ih h)
      refine ⟨?_, ?_⟩
      · dsimp only
        rw [g2]
        omega
      · intro p hp
        dsimp only at hp
        rcases List.mem_cons.mp hp with hp | hp
        · subst hp
          refine Or.inr ⟨?_, ?_⟩
          · dsimp only
            rw [g1]
          · dsimp only
            rw [g2, g1]
            omega
        · rw [g6] at hp
          exact Or.inl hp

theorem transferutxoOp_utxoStep {env : Env} {payer : Name} {inputs : List Input}
    {outputs : List Output} {memo : String} {s s' : State}
    (h : transferutxoOp env payer inputs outputs memo s = .ok s') :
    UtxoStepOk s s' := by
  unfold transferutxoOp at h
  split at h
  · exact absurd h (by simp)
  split at h
  · exact absurd h (by simp)
  rename_i s₁ inputSum hpi
  split at h
  · exact absurd h (by simp)
  rename_i s₂ outputSum hpo
  obtain ⟨-, -, -, i4, -, -, -, -, imem⟩ := processInputs_effect hpi
  have h1 : UtxoStepOk s s₁ := by
    refine ⟨by rw [i4], ?_⟩
    intro p hp
    exact Or.inl (imem p hp)
  have h2 : UtxoStepOk s s₂ := utxoStepOk_trans h1 (processOutputs_utxoStep hpo)
  split at h
  · exact absurd h (by simp)
  split at h
  · exact absurd h (by simp)
  split at h
  · exact absurd h (by simp)
  split at h
  · obtain ⟨hu, hg⟩ := transferOp_utxoFrame h
    exact utxoStepOk_trans h2 (utxoStepOk_of_frame hu hg)
  · injection h with h
    subst h
    exact h2

theorem processInputs_append {env : Env} {outputs : List Output}
    {l₁ l₂ : List Input} {s : State} {acc : Asset} {s₁ : State} {acc₁ : Asset}
    (h : processInputs env outputs l₁ s acc = .ok (s₁, acc₁)) :
    processInputs env outputs (l₁ ++ l₂) s acc =
      processInputs env outputs l₂ s₁ acc₁ := by
  induction l₁ generalizing s acc with
  | nil =>
    simp only [processInputs] at h
    injection h with h
    rw [Prod.mk.injEq] at h
    obtain ⟨rfl, rfl⟩ := h
    rfl
  | cons i rest ih =>
    simp only [processInputs] at h
    split at h
    · exact absurd h (by simp)
    rename_i u hf
    split at h
    · rename_i hsig
      split at h
      · exact absurd h (by simp)
      rename_i acc' ha
      rw [List.cons_append]
      simp only [processInputs, hf, hsig, if_true, ha]
      exact ih h
    · exact absurd h (by simp)

theorem processInputs_found {env : Env} {outputs : List Output}
    {inputs : List Input} {s : State} {acc : Asset} {s₁ : State} {acc₁ : Asset}
    (h : processInputs env outputs inputs s acc = .ok (s₁, acc₁)) :
    ∀ i ∈ inputs, ∃ u, (i.id, u) ∈ s.utxos := by
  induction inputs generalizing s acc with
  | nil => intro i hi; cases hi
  | cons i rest ih =>
    simp only [processInputs] at h
    split at h
    · exact absurd h (by simp)
    rename_i u hf
    split at h
    · split at h
      · exact absurd h (by simp)
      rename_i acc' ha
      intro j hj
      rcases List.mem_cons.mp hj with rfl | hj
      · exact ⟨u, tblFind_mem hf⟩
      · obtain ⟨w, hw⟩ := ih h j hj
        exact ⟨w, mem_tblErase hw⟩
    · exact absurd h (by simp)

theorem processInputs_spent {env : Env} {outputs : List Output}
    {inputs : List Input} {s : State} {acc : Asset} {s₁ : State} {acc₁ : Asset}
    (hn : keysNodup s.utxos)
    (h : processInputs env outputs inputs s acc = .ok (s₁, acc₁)) :
    ∀ i ∈ inputs, tblFind s₁.utxos i.id = none := by
  induction inputs generalizing s acc with
  | nil => intro i hi; cases hi
  | cons i rest ih =>
    simp only [processInputs] at h
    split at h
    · exact absurd h (by simp)
    rename_i u hf
    split at h
    · split at h
      · exact absurd h (by simp)
      rename_i acc' ha
      intro j hj
      rcases List.mem_cons.mp hj with rfl | hj
      · have hmid : tblFind (tblErase s.utxos j.id) j.id = none :=
          tblFind_erase_self _ hn
        obtain ⟨-, -, -, -, -, -, -, -, hmem⟩ := processInputs_effect h
        rw [tblFind_eq_none] at hmid ⊢
        intro hk
        rcases List.mem_map.mp hk with ⟨p, hp, hpk⟩
        exact hmid (List.mem_map.mpr ⟨p, hmem p hp, hpk⟩)
      · exact ih (keysNodup_erase hn _) h j hj
    · exact absurd h (by simp)

theorem processInputs_dup {env : Env} {outputs : List Output}
    {l₁ : List Input} {i : Input} {l₂ : List Input} {s : State} {acc : Asset}
    {s₁ : State} {acc₁ : Asset} (hn : keysNodup s.utxos)
    (hmem : i.id ∈ l₁.map Input.id)
    (h : processInputs env outputs l₁ s acc = .ok (s₁, acc₁)) :
    processInputs env outputs (l₁ ++ i :: l₂) s acc = .error .UnknownNote := by
  rw [processInputs_append h]
  obtain ⟨j, hj, hjid⟩ := List.mem_map.mp hmem
  have hnone := processInputs_spent hn h j hj
  rw [hjid] at hnone
  simp [processInputs, hnone]

/-- The UTXO footprint of every successful action: the id counter never
decreases and every new note's id is allocated from it. -/
theorem step_utxo {env : Env} {a : Act} {s s' : State}
    (h : exec env a s = .ok s') : UtxoStepOk s s' := by
  cases a with
  | create issuer m => obtain ⟨hu, hg⟩ := createOp_utxoFrame h
                       exact utxoStepOk_of_frame hu hg
  | update issuer m => obtain ⟨hu, hg⟩ := updateOp_utxoFrame h
                       exact utxoStepOk_of_frame hu hg
  | issue d q m => obtain ⟨hu, hg⟩ := issueOp_utxoFrame h
                   exact utxoStepOk_of_frame hu hg
  | retire q m => obtain ⟨hu, hg⟩ := retireOp_utxoFrame h
                  exact utxoStepOk_of_frame hu hg
  | transfer f d q m => obtain ⟨hu, hg⟩ := transferOp_utxoFrame h
                        exact utxoStepOk_of_frame hu hg
  | claim o c => obtain ⟨hu, hg⟩ := do_claim_utxoFrame h
                 exact utxoStepOk_of_frame hu hg
  | recover o c => obtain ⟨hu, hg⟩ := recoverOp_utxoFrame h
                   exact utxoStepOk_of_frame hu hg
  | openAcct o sym => obtain ⟨hu, hg⟩ := openOp_utxoFrame h
                      exact utxoStepOk_of_frame hu hg
  | close o sym => obtain ⟨hu, hg⟩ := closeOp_utxoFrame h
                   exact utxoStepOk_of_frame hu hg
  | transferutxo p i o m => exact transferutxoOp_utxoStep h
  | loadutxo f pk q => exact loadutxoOp_utxoStep h
  | stake o q => obtain ⟨hu, hg⟩ := stakeOp_utxoFrame h
                 exact utxoStepOk_of_frame hu hg
  | unstake o q => obtain ⟨hu, hg⟩ := unstakeOp_utxoFrame h
                   exact utxoStepOk_of_frame hu hg
  | realizediv o => obtain ⟨hu, hg⟩ := realizedivOp_utxoFrame h
                    exact utxoStepOk_of_frame hu hg
  | refund o => obtain ⟨hu, hg⟩ := refundOp_utxoFrame h
                exact utxoStepOk_of_frame hu hg
  | distribute o q => obtain ⟨hu, hg⟩ := distributeOp_utxoFrame h
                      exact utxoStepOk_of_frame hu hg

theorem transferutxo_spends {env : Env} {payer : Name} {inputs : List Input}
    {outputs : List Output} {memo : String} {s s' : State}
    (hn : keysNodup s.utxos)
    (hlt : ∀ p ∈ s.utxos, p.1 < counterVal s.utxoGlobal)
    (h : transferutxoOp env payer inputs outputs memo s = .ok s') :
    ∀ i ∈ inputs, tblFind s'.utxos i.id = none := by
  unfold transferutxoOp at h
  split at h
  · exact absurd h (by simp)
  split at h
  · exact absurd h (by simp)
  rename_i s₁ inputSum hpi
  split at h
  · exact absurd h (by simp)
  rename_i s₂ outputSum hpo
  intro i hi
  have hnone1 : tblFind s₁.utxos i.id = none := processInputs_spent hn hpi i hi
  obtain ⟨-, -, -, i4, -, -, -, -, -⟩ := processInputs_effect hpi
  obtain ⟨u, hu⟩ := processInputs_found hpi i hi
  have hilt : i.id < counterVal s₁.utxoGlobal := by
    rw [i4]
    exact hlt (i.id, u) hu
  obtain ⟨-, omem⟩ := processOutputs_utxoStep hpo
  have hnone2 : tblFind s₂.utxos i.id = none := by
    rw [tblFind_eq_none] at hnone1 ⊢
    intro hk
    rcases List.mem_map.mp hk with ⟨p, hp, hpk⟩
    rcases omem p hp with hold | ⟨hge, -⟩
    · exact hnone1 (List.mem_map.mpr ⟨p, hold, hpk⟩)
    · rw [hpk] at hge
      omega
  split at h
  · exact absurd h (by simp)
  split at h
  · exact absurd h (by simp)
  split at h
  · exact absurd h (by simp)
  split at h
  · obtain ⟨hu3, -⟩ := transferOp_utxoFrame h
    rw [hu3]
    exact hnone2
  · injection h with h
    subst h
    exact hnone2

theorem mem_tblErase_of_ne {K V : Type} [DecidableEq K] {t : Tbl K V} {k : K}
    {p : K × V} (hp : p ∈ t) (hne : p.1 ≠ k) : p ∈ tblErase t k := by
  induction t with
  | nil => cases hp
  | cons q r ih =>
    obtain ⟨a, w⟩ := q
    rcases List.mem_cons.mp hp with hp | hp
    · subst hp
      have ha : a ≠ k := hne
      simp only [tblErase, if_neg ha]
      exact List.mem_cons_self _ _
    · by_cases ha : a = k
      · simp only [tblErase, if_pos ha]
        exact hp
      · simp only [tblErase, if_neg ha]
        exact List.mem_cons_of_mem _ (ih hp)

theorem processInputs_keeps {env : Env} {outputs : List Output}
    {inputs : List Input} {s : State} {acc : Asset} {s₁ : State} {acc₁ : Asset}
    (h : processInputs env outputs inputs s acc = .ok (s₁, acc₁)) :
    ∀ p ∈ s.utxos, p.1 ∉ inputs.map Input.id → p ∈ s₁.utxos := by
  induction inputs generalizing s acc with
  | nil =>
    simp only [processInputs] at h
    injection h with h
    rw [Prod.mk.injEq] at h
    obtain ⟨rfl, rfl⟩ := h
    exact fun p hp _ => hp
  | cons i rest ih =>
    simp only [processInputs] at h
    split at h
    · exact absurd h (by simp)
    rename_i u hf
    split at h
    · split at h
      · exact absurd h (by simp)
      rename_i acc' ha
      intro p hp hpid
      simp only [List.map_cons, List.mem_cons, not_or] at hpid
      refine ih h p ?_ hpid.2
      exact mem_tblErase_of_ne hp hpid.1
    · exact absurd h (by simp)

theorem processOutputs_keeps {env : Env} {payer : Name} {memo : String}
    {outputs : List Output} {s : State} {acc : Asset} {s₂ : State} {acc₂ : Asset}
    (h : processOutputs env payer memo outputs s acc = .ok (s₂, acc₂)) :
    ∀ p ∈ s.utxos, p ∈ s₂.utxos := by
  induction outputs generalizing s acc with
  | nil =>
    simp only [processOutputs] at h
    injection h with h
    rw [Prod.mk.injEq] at h
    obtain ⟨rfl, rfl⟩ := h
    exact fun p hp => hp
  | cons o rest ih =>
    simp only [processOutputs] at h
    split at h
    · exact absurd h (by simp)
    split at h
    · exact absurd h (by simp)
    split at h
    · exact absurd h (by simp)
    split at h
    · exact absurd h (by simp)
    rename_i acc' haddA
    split at h
    · split at h
      · exact absurd h (by simp)
      rename_i sm htr
      obtain ⟨hu1, -⟩ := transferOp_utxoFrame htr
      intro p hp
      refine ih h p ?_
      rw [hu1]
      exact hp
    · split at h
      · exact absurd h (by simp)
      rename_i t ht
      obtain ⟨hfn, ht2⟩ := tblEmplace_ok ht
      subst ht2
      obtain ⟨-, -, -, -, -, g6, -, -, -⟩ := getNextUTXOId_spec s
      intro p hp
      refine ih h p ?_
      dsimp only
      rw [g6]
      exact List.mem_cons_of_mem _ hp

theorem processInputs_sumSym {env : Env} {outputs : List Output}
    {inputs : List Input} {s : State} {acc : Asset} {s₁ : State} {acc₁ : Asset}
    (h : processInputs env outputs inputs s acc = .ok (s₁, acc₁)) :
    acc₁.sym = acc.sym := by
  induction inputs generalizing s acc with
  | nil =>
    simp only [processInputs] at h
    injection h with h
    rw [Prod.mk.injEq] at h
    obtain ⟨rfl, rfl⟩ := h
    rfl
  | cons i rest ih =>
    simp only [processInputs] at h
    split at h
    · exact absurd h (by simp)
    rename_i u hf
    split at h
    · split at h
      · exact absurd h (by simp)
      rename_i acc' ha
      rw [ih h, (addA_ok ha).2]
    · exact absurd h (by simp)

theorem processOutputs_sumSym {env : Env} {payer : Name} {memo : String}
    {outputs : List Output} {s : State} {acc : Asset} {s₂ : State} {acc₂ : Asset}
    (h : processOutputs env payer memo outputs s acc = .ok (s₂, acc₂)) :
    acc₂.sym = acc.sym := by
  induction outputs generalizing s acc with
  | nil =>
    simp only [processOutputs] at h
    injection h with h
    rw [Prod.mk.injEq] at h
    obtain ⟨rfl, rfl⟩ := h
    rfl
  | cons o rest ih =>
    simp only [processOutputs] at h
    split at h
    · exact absurd h (by simp)
    split at h
    · exact absurd h (by simp)
    split at h
    · exact absurd h (by simp)
    split at h
    · exact absurd h (by simp)
    rename_i acc' haddA
    split at h
    · split at h
      · exact absurd h (by simp)
      rw [ih h, (addA_ok haddA).2]
    · split at h
      · exact absurd h (by simp)
      rw [ih h, (addA_ok haddA).2]

theorem balOf_eq_of_find {s t : State} {n : Name} {c : Nat}
    (h : (tblFind s.accounts (n, c)).map AccountRow.balance =
      (tblFind t.accounts (n, c)).map AccountRow.balance) :
    balOf s n c = balOf t n c := by
  unfold balOf
  rcases hs : tblFind s.accounts (n, c) with _ | r <;>
    rcases ht : tblFind t.accounts (n, c) with _ | r' <;>
      rw [hs, ht] at h <;> simp_all

theorem transferOp_balances {env : Env} {frm dst : Name} {q : Asset}
    {memo : String} {hat : Bool} {s s' : State}
    (h : transferOp env frm dst q memo hat s = .ok s') :
    frm ≠ dst ∧
    balOf s' dst q.sym.code = balOf s dst q.sym.code + q.amount ∧
    balOf s' frm q.sym.code = balOf s frm q.sym.code - q.amount ∧
    (∀ k : Name × Nat, k ≠ (frm, q.sym.code) → k ≠ (dst, q.sym.code) →
      (tblFind s'.accounts k).map AccountRow.balance =
        (tblFind s.accounts k).map AccountRow.balance) := by
  unfold transferOp at h
  split at h
  · exact absurd h (by simp)
  rename_i hne
  split at h
  · exact absurd h (by simp)
  split at h
  · exact absurd h (by simp)
  rename_i st hf
  split at h
  · exact absurd h (by simp)
  split at h
  · exact absurd h (by simp)
  split at h
  · exact absurd h (by simp)
  split at h
  · exact absurd h (by simp)
  split at h
  · exact absurd h (by simp)
  rename_i s₁ h1
  split at h
  · exact absurd h (by simp)
  rename_i s₂ h2
  split at h
  · exact absurd h (by simp)
  rename_i s₃ h3
  have hfd : frm ≠ dst := hne
  have hkey : ((frm, q.sym.code) : Name × Nat) ≠ (dst, q.sym.code) := by
    intro hk
    exact hfd (congrArg Prod.fst hk)
  have dc1 := do_claim_find h1
  obtain ⟨sub_ne, row, hrow, hrow'⟩ := sub_balance_find h2
  obtain ⟨add_ne, add_none, add_some⟩ := add_balance_find h3
  have hb1 : ∀ n c, balOf s₁ n c = balOf s n c := fun n c =>
    balOf_eq_of_find (dc1 (n, c))
  have hb2f : balOf s₂ frm q.sym.code = balOf s₁ frm q.sym.code - q.amount := by
    unfold balOf
    rw [hrow, hrow']
  have hb2d : balOf s₂ dst q.sym.code = balOf s₁ dst q.sym.code := by
    unfold balOf
    rw [sub_ne (dst, q.sym.code) (fun hk => hkey hk.symm)]
  have hb3d : balOf s₃ dst q.sym.code = balOf s₂ dst q.sym.code + q.amount := by
    unfold balOf
    rcases hd : tblFind s₂.accounts (dst, q.sym.code) with _ | prev
    · rw [add_none hd]
      simp
    · rw [add_some prev hd]
  have hb3f : balOf s₃ frm q.sym.code = balOf s₂ frm q.sym.code := by
    unfold balOf
    rw [add_ne (frm, q.sym.code) hkey]
  have hoth3 : ∀ k : Name × Nat, k ≠ (frm, q.sym.code) → k ≠ (dst, q.sym.code) →
      (tblFind s₃.accounts k).map AccountRow.balance =
        (tblFind s.accounts k).map AccountRow.balance := by
    intro k hk1 hk2
    rw [add_ne k hk2, sub_ne k hk1]
    exact dc1 k
  split at h
  · have dc4 := do_claim_find h
    refine ⟨hfd, ?_, ?_, ?_⟩
    · rw [balOf_eq_of_find (dc4 (dst, q.sym.code)), hb3d, hb2d, hb1]
    · rw [balOf_eq_of_find (dc4 (frm, q.sym.code)), hb3f, hb2f, hb1]
    · intro k hk1 hk2
      rw [dc4 k]
      exact hoth3 k hk1 hk2
  · injection h with h
    subst h
    refine ⟨hfd, ?_, ?_, hoth3⟩
    · rw [hb3d, hb2d, hb1]
    · rw [hb3f, hb2f, hb1]

theorem utxo_spent_persists {i : Nat} {s s' : State}
    (hlt : i < counterVal s.utxoGlobal) (hnone : tblFind s.utxos i = none)
    (hs : Steps s s') :
    i < counterVal s'.utxoGlobal ∧ tblFind s'.utxos i = none := by
  induction hs with
  | refl => exact ⟨hlt, hnone⟩
  | tail hab hbc ih =>
    obtain ⟨hlt1, hnone1⟩ := ih
    obtain ⟨env, a, hexec⟩ := hbc
    obtain ⟨hc, hmem⟩ := step_utxo hexec
    refine ⟨lt_of_lt_of_le hlt1 hc, ?_⟩
    rw [tblFind_eq_none] at hnone1 ⊢
    intro hk
    rcases List.mem_map.mp hk with ⟨p, hp, hpk⟩
    rcases hmem p hp with hold | ⟨hge, -⟩
    · exact hnone1 (List.mem_map.mpr ⟨p, hold, hpk⟩)
    · rw [hpk] at hge
      omega

theorem stakeDividendUpd_frac {q : Asset} {s : State} {fs : ℚ × State}
    (h : stakeDividendUpd q s = .ok fs) :
    ∃ d, tblFind fs.2.dividends q.sym.code = some d ∧ d.totalDividendFrac = fs.1 := by
  unfold stakeDividendUpd at h
  split at h
  · rename_i d hd
    split at h
    · exact absurd h (by simp)
    rename_i ts hts
    injection h with h
    subst h
    refine ⟨{ d with totalStaked := ts }, ?_, rfl⟩
    dsimp only
    rw [tblFind_modify_self, hd]
    rfl
  · rename_i hd
    split at h
    · exact absurd h (by simp)
    rename_i t ht
    obtain ⟨hfn, ht2⟩ := tblEmplace_ok ht
    subst ht2
    injection h with h
    subst h
    refine ⟨⟨q, ⟨0, PEOS_SYMBOL⟩, ⟨0, PEOS_SYMBOL⟩, 1⟩, ?_, rfl⟩
    dsimp only
    rw [tblFind, if_pos rfl]

/-- C7 (amended): a `stake(owner, X)` of PEOS that starts from no stake
position and no pending refund, immediately followed by a successful
`unstake(owner, X)` with no distribution in between, leaves the owner's
transferable balance at its pre-stake value MINUS `X` (the tokens sit in the
deferred refund, not the balance) and a refund request of exactly `X`
timestamped now. -/
theorem C7_stake_unstake_roundtrip {env : Env} {owner : Name} {X : Asset}
    {s s₁ s₂ : State}
    (hsym : X.sym = PEOS_SYMBOL)
    (hstk0 : tblFind s.stakes (owner, PEOS_CODE) = none)
    (href0 : tblFind s.refunds owner = none)
    (h₁ : stakeOp env owner X s = .ok s₁)
    (h₂ : unstakeOp env owner X s₁ = .ok s₂) :
    balOf s₂ owner PEOS_CODE = balOf s owner PEOS_CODE - X.amount ∧
    tblFind s₂.refunds owner = some ⟨env.now, X⟩ := by
  have hcode : X.sym.code = PEOS_CODE := by rw [hsym]; rfl
  -- Stage A: take the stake apart.
  unfold stakeOp at h₁
  split at h₁
  · exact absurd h₁ (by simp)
  rename_i st hfst
  split at h₁
  · exact absurd h₁ (by simp)
  split at h₁
  · exact absurd h₁ (by simp)
  rename_i hpos
  split at h₁
  · exact absurd h₁ (by simp)
  split at h₁
  · exact absurd h₁ (by simp)
  rename_i s₁' hrd
  have hrd' : realizedivOp env owner s = .ok s := by
    unfold realizedivOp
    rw [hstk0]
  have hs₁' : s = s₁' := by
    have := hrd'.symm.trans hrd
    injection this
  subst hs₁'
  split at h₁
  · exact absurd h₁ (by simp)
  rename_i fs hsd
  split at h₁
  · rename_i stk hstk
    rw [hcode, hstk0] at hstk
    cases hstk
  rename_i hstknone
  split at h₁
  · exact absurd h₁ (by simp)
  rename_i t ht
  obtain ⟨htfn, ht2⟩ := tblEmplace_ok ht
  subst ht2
  -- facts about the post-stake state s₁
  obtain ⟨sd1, sd2, -, -, -, sd6, sd7, -, -, -⟩ := stakeDividendUpd_effect hsd
  obtain ⟨div₁, hdiv₁, hfrac⟩ := stakeDividendUpd_frac hsd
  obtain ⟨seaA, -, -⟩ := transferOp_effect h₁
  obtain ⟨-, -, hbalA, -⟩ := transferOp_balances h₁
  have hstk₁ : tblFind s₁.stakes (owner, PEOS_CODE) = some ⟨X, fs.1⟩ := by
    rw [seaA.2.2.2.2.1]
    dsimp only
    rw [← hcode, tblFind, if_pos rfl]
  have hdiv₁' : tblFind s₁.dividends PEOS_CODE = some div₁ := by
    rw [seaA.2.2.2.2.2.1]
    dsimp only
    rw [← hcode]
    exact hdiv₁
  have href₁ : tblFind s₁.refunds owner = none := by
    rw [seaA.2.2.2.2.2.2]
    dsimp only
    rw [sd7]
    exact href0
  have hbal₁ : balOf s₁ owner PEOS_CODE = balOf s owner PEOS_CODE - X.amount := by
    rw [hcode] at hbalA
    rw [hbalA]
    unfold balOf
    dsimp only
    rw [sd2]
  -- Stage B: take the unstake apart.
  have hX0 : ¬ (X.amount = 0) := by omega
  have hprofit : divProfit ⟨X, fs.1⟩ div₁ = 0 := by
    simp [divProfit, hfrac]
  have hrd2' : realizedivOp env owner s₁ =
      .ok (realizeDivSnap owner ⟨X, fs.1⟩ div₁ s₁) := by
    unfold realizedivOp
    rw [hstk₁]
    simp only [hX0, if_false, hdiv₁', hprofit]
    norm_num
  unfold unstakeOp at h₂
  split at h₂
  · exact absurd h₂ (by simp)
  rename_i u₁ hrd2
  have hu₁ : realizeDivSnap owner ⟨X, fs.1⟩ div₁ s₁ = u₁ := by
    have := hrd2'.symm.trans hrd2
    injection this
  subst hu₁
  have hstku : tblFind (realizeDivSnap owner ⟨X, fs.1⟩ div₁ s₁).stakes
      (owner, X.sym.code) = some ⟨X, div₁.totalDividendFrac⟩ := by
    unfold realizeDivSnap
    dsimp only
    rw [hcode, tblFind_modify_self, hstk₁]
    rfl
  split at h₂
  · rename_i hnone
    rw [hstku] at hnone
    cases hnone
  rename_i stk' hstk'
  rw [hstku] at hstk'
  injection hstk' with hstk'
  subst hstk'
  split at h₂
  · exact absurd h₂ (by simp)
  split at h₂
  · exact absurd h₂ (by simp)
  rename_i s₂' hur
  have hur' : unstakeRows owner ⟨X, div₁.totalDividendFrac⟩ X
      (realizeDivSnap owner ⟨X, fs.1⟩ div₁ s₁) =
      .ok { realizeDivSnap owner ⟨X, fs.1⟩ div₁ s₁ with
        stakes := tblErase (realizeDivSnap owner ⟨X, fs.1⟩ div₁ s₁).stakes
          (owner, X.sym.code) } := by
    unfold unstakeRows
    rw [if_pos (le_refl _)]
  have h3 := hur'.symm.trans hur
  injection h3 with h3
  subst h3
  split at h₂
  · exact absurd h₂ (by simp)
  rename_i st' hst'
  split at h₂
  · exact absurd h₂ (by simp)
  split at h₂
  · exact absurd h₂ (by simp)
  split at h₂
  · exact absurd h₂ (by simp)
  split at h₂
  · exact absurd h₂ (by simp)
  rename_i d hd
  split at h₂
  · exact absurd h₂ (by simp)
  rename_i ts hts
  split at h₂
  · rename_i r hr
    dsimp only at hr
    unfold realizeDivSnap at hr
    dsimp only at hr
    rw [href₁] at hr
    cases hr
  rename_i hrnone
  split at h₂
  · exact absurd h₂ (by simp)
  rename_i t' ht'
  obtain ⟨-, ht'2⟩ := tblEmplace_ok ht'
  subst ht'2
  injection h₂ with h₂
  subst h₂
  have hclamp : unstakeClamp ⟨X, div₁.totalDividendFrac⟩ X = X := by
    simp [unstakeClamp]
  refine ⟨?_, ?_⟩
  · rw [← hbal₁]
    unfold balOf
    dsimp only
    unfold realizeDivSnap
    dsimp only
  · dsimp only
    rw [tblFind, if_pos rfl, hclamp]

/-! ### Reachability of the test chain -/

theorem reach_cS1 : Reachable cS1 :=
  Reachable.step envT (.create 1 ⟨4000000000, PEOS_SYMBOL⟩) Reachable.init rfl

theorem reach_cS2 : Reachable cS2 :=
  Reachable.step envT (.issue 1 ⟨1000000, PEOS_SYMBOL⟩ "") reach_cS1 rfl

theorem reach_cS3 : Reachable cS3 :=
  Reachable.step envT (.transfer 1 5 ⟨1000000, PEOS_SYMBOL⟩ "") reach_cS2 rfl

theorem reach_cS4 : Reachable cS4 :=
  Reachable.step envT (.stake 5 ⟨400000, PEOS_SYMBOL⟩) reach_cS3 rfl

/-! ### The claims -/

/-- C1: in every reachable state every stats row satisfies
`0 ≤ supply ≤ max_supply`; an `issue` whose quantity would push the supply
past `max_supply` (all earlier checks passing) fails with `SupplyExceeded`;
and a successful `retire` from a reachable state leaves every supply
nonnegative. -/
theorem C1_supply_bounds :
    (∀ s, Reachable s → ∀ p ∈ s.stats, 0 ≤ p.2.supply.amount ∧
      p.2.supply.amount ≤ p.2.max_supply.amount) ∧
    (∀ (env : Env) (dst : Name) (q : Asset) (memo : String) (s : State)
      (st : CurrencyStats), tblFind s.stats q.sym.code = some st →
      q.sym.isValid = true → memo.length ≤ 256 → q.isValid = true →
      0 < q.amount → q.sym = st.supply.sym →
      st.max_supply.amount < st.supply.amount + q.amount →
      issueOp env dst q memo s = .error .SupplyExceeded) ∧
    (∀ s, Reachable s → ∀ (q : Asset) (memo : String) (s' : State),
      retireOp q memo s = .ok s' → ∀ p ∈ s'.stats, 0 ≤ p.2.supply.amount) := by
  refine ⟨?_, ?_, ?_⟩
  · intro s hr p hp
    obtain ⟨h1, h2, -⟩ := (reachable_inv hr).statsOk p hp
    exact ⟨h1, h2⟩
  · intro env dst q memo s st hfind hv hm hval hpos hsymeq hover
    have hc : issueCore env dst q memo s = .error .SupplyExceeded := by
      unfold issueCore
      rw [if_neg (not_not_intro hv), if_neg (by omega)]
      simp only [hfind]
      rw [if_neg (not_not_intro hval), if_neg (by omega),
        if_neg (not_not_intro hsymeq), if_pos (by omega)]
    simp only [issueOp, hc]
  · intro s hr q memo s' h p hp
    exact ((inv_retireOp (reachable_inv hr) h).statsOk p hp).1

/-- C1 instantiated on the test chain: the post-issue state keeps the
bounds, a 399,900.0001 PEOS issue over the 400,000 cap fails with
`SupplyExceeded`, and the supply stays nonnegative after a retire. -/
theorem C1_supply_bounds_witness :
    (∀ p ∈ cS2.stats, 0 ≤ p.2.supply.amount ∧
      p.2.supply.amount ≤ p.2.max_supply.amount) ∧
    issueOp envT 1 ⟨3999000001, PEOS_SYMBOL⟩ "" cS2 = .error .SupplyExceeded ∧
    (∀ p ∈ cS2r.stats, 0 ≤ p.2.supply.amount) := by
  refine ⟨C1_supply_bounds.1 cS2 reach_cS2, ?_,
    C1_supply_bounds.2.2 cS2 reach_cS2 ⟨100000, PEOS_SYMBOL⟩ "" cS2r rfl⟩
  exact C1_supply_bounds.2.1 envT 1 ⟨3999000001, PEOS_SYMBOL⟩ "" cS2
    ⟨⟨1000000, PEOS_SYMBOL⟩, ⟨4000000000, PEOS_SYMBOL⟩, 1⟩ rfl (by decide)
    (by decide) (by decide) (by decide) rfl (by decide)

/-- C9: in every reachable state every note id is below the global
counter; every successful action leaves the counter no smaller and every
note it adds carries a fresh id allocated from the counter interval; and
an id that was allocated and is gone from the table never reappears under
any further sequence of successful actions. -/
theorem C9_utxo_id_allocation :
    (∀ s, Reachable s → ∀ p ∈ s.utxos, p.1 < counterVal s.utxoGlobal) ∧
    (∀ (env : Env) (a : Act) (s s' : State), exec env a s = .ok s' →
      counterVal s.utxoGlobal ≤ counterVal s'.utxoGlobal ∧
      ∀ p ∈ s'.utxos, p ∈ s.utxos ∨
        (counterVal s.utxoGlobal ≤ p.1 ∧ p.1 < counterVal s'.utxoGlobal)) ∧
    (∀ (i : Nat) (s s' : State), i < counterVal s.utxoGlobal →
      tblFind s.utxos i = none → Steps s s' → tblFind s'.utxos i = none) :=
  ⟨fun _ h => (reachable_inv h).utxoOk,
   fun _ _ _ _ h => step_utxo h,
   fun _ _ _ h1 h2 h3 => (utxo_spent_persists h1 h2 h3).2⟩

/-- C10: in every reachable state a stake row only exists above a
dividends row for its symbol; in particular the dividends lookup of
`realizediv` made under a present PEOS stake position finds a record. -/
theorem C10_stake_dividends (s : State) (hr : Reachable s) :
    (∀ p ∈ s.stakes, (tblFind s.dividends p.1.2).isSome = true) ∧
    (∀ (owner : Name) (stk : StakeRow),
      tblFind s.stakes (owner, PEOS_CODE) = some stk →
      (tblFind s.dividends PEOS_CODE).isSome = true) := by
  have inv := reachable_inv hr
  refine ⟨inv.stakeOk, ?_⟩
  intro owner stk hf
  exact inv.stakeOk ((owner, PEOS_CODE), stk) (tblFind_mem hf)

/-- C10 instantiated on the post-stake state of the test chain, which
holds a PEOS stake row for account `5`. -/
theorem C10_stake_dividends_witness :
    (∀ p ∈ cS4.stakes, (tblFind cS4.dividends p.1.2).isSome = true) ∧
    (∀ (owner : Name) (stk : StakeRow),
      tblFind cS4.stakes (owner, PEOS_CODE) = some stk →
      (tblFind cS4.dividends PEOS_CODE).isSome = true) :=
  C10_stake_dividends cS4 reach_cS4

/-- C4 (amended): for a present PEOS stake position of nonzero amount and
a present dividends row, `realizediv` always advances the position's
snapshot fraction to the accumulator, pays out `trunc(profit)` (by an
inline transfer from the contract) only when `profit ≥ 1`, but rewrites
`totalUnclaimedDividends` to `trunc(unclaimed - profit)` in every case —
also when no payout happens. -/
theorem C4_realizediv_behavior (env : Env) {owner : Name} {s : State}
    {stk : StakeRow} {div : DividendRow}
    (hstk : tblFind s.stakes (owner, PEOS_CODE) = some stk)
    (hq : stk.quantity.amount ≠ 0)
    (hdiv : tblFind s.dividends PEOS_CODE = some div) :
    (divProfit stk div < 1 →
      realizedivOp env owner s = .ok (realizeDivSnap owner stk div s)) ∧
    (1 ≤ divProfit stk div →
      realizedivOp env owner s =
        transferOp env SELF owner ⟨ratTrunc (divProfit stk div), PEOS_SYMBOL⟩
          "Your dividents from staked PEOS tokens" false
          (realizeDivSnap owner stk div s)) ∧
    tblFind (realizeDivSnap owner stk div s).stakes (owner, PEOS_CODE) =
      some { stk with lastDividendsFrac := div.totalDividendFrac } ∧
    tblFind (realizeDivSnap owner stk div s).dividends PEOS_CODE =
      some { div with totalUnclaimedDividends :=
        ⟨ratTrunc ((div.totalUnclaimedDividends.amount : ℚ) - divProfit stk div),
         div.totalUnclaimedDividends.sym⟩ } := by
  refine ⟨?_, ?_, ?_, ?_⟩
  · intro hlt
    unfold realizedivOp
    simp only [hstk]
    rw [if_neg hq]
    simp only [hdiv]
    rw [if_neg (by exact not_le.mpr hlt)]
  · intro hge
    unfold realizedivOp
    simp only [hstk]
    rw [if_neg hq]
    simp only [hdiv]
    rw [if_pos hge]
  · unfold realizeDivSnap
    dsimp only
    rw [tblFind_modify_self, hstk]
    rfl
  · unfold realizeDivSnap
    dsimp only
    rw [tblFind_modify_self, hdiv]
    rfl

section RatEval

/- The core rational operations are `irreducible`; making them
transparent again lets `rfl`/`decide` instantiate the verified properties
on the concrete fixtures (which the compiled evaluator already handles). -/
attribute [local semireducible] Rat.add Rat.sub Rat.mul Rat.inv

/-- C4 refuted as worded: in `sC4` the pending profit is `1/2 < 1`, so no
payout is owed, yet the successful `realizediv` still shrinks
`totalUnclaimedDividends` from 10 to 9 through the truncating
`int64 -= double` write. -/
theorem C4_unconditional_decrement_cex :
    divProfit stkC4 divC4 < 1 ∧
    realizedivOp envT 5 sC4 = .ok sC4' ∧
    (tblFind sC4.dividends PEOS_CODE).map
      (fun d => d.totalUnclaimedDividends.amount) = some 10 ∧
    (tblFind sC4'.dividends PEOS_CODE).map
      (fun d => d.totalUnclaimedDividends.amount) = some 9 :=
  ⟨by decide, rfl, rfl, by decide⟩

/-- C4 (amended) instantiated on `sC4`: the no-payout branch is taken and
both unconditional writes land. -/
theorem C4_realizediv_witness :
    realizedivOp envT 5 sC4 = .ok (realizeDivSnap 5 stkC4 divC4 sC4) ∧
    tblFind (realizeDivSnap 5 stkC4 divC4 sC4).stakes (5, PEOS_CODE) =
      some { stkC4 with lastDividendsFrac := divC4.totalDividendFrac } ∧
    tblFind (realizeDivSnap 5 stkC4 divC4 sC4).dividends PEOS_CODE =
      some { divC4 with totalUnclaimedDividends :=
        ⟨ratTrunc ((divC4.totalUnclaimedDividends.amount : ℚ) - divProfit stkC4 divC4),
         divC4.totalUnclaimedDividends.sym⟩ } := by
  have h := C4_realizediv_behavior envT
    (show tblFind sC4.stakes (5, PEOS_CODE) = some stkC4 from rfl)
    (show stkC4.quantity.amount ≠ 0 from by decide)
    (show tblFind sC4.dividends PEOS_CODE = some divC4 from rfl)
  exact ⟨h.1 (by decide), h.2.2.1, h.2.2.2⟩

/-- C5: a successful `distribute(owner, q)` creates the dividends row at
`⟨staked 0, dividends 0, unclaimed q, accumulator 1⟩` when it is absent;
when present with nonpositive `totalStaked` it only adds `q` to
`totalUnclaimedDividends`; and with positive `totalStaked` it adds `q` to
both `totalDividends` and `totalUnclaimedDividends` and raises the
accumulator by exactly `q / totalStaked`. -/
theorem C5_distribute_effect {env : Env} {owner : Name} {q : Asset}
    {s s' : State} (h : distributeOp env owner q s = .ok s') :
    (tblFind s.dividends PEOS_CODE = none →
      tblFind s'.dividends PEOS_CODE =
        some ⟨⟨0, PEOS_SYMBOL⟩, ⟨0, PEOS_SYMBOL⟩, q, 1⟩) ∧
    (∀ d, tblFind s.dividends PEOS_CODE = some d → d.totalStaked.amount ≤ 0 →
      tblFind s'.dividends PEOS_CODE =
        some ⟨d.totalStaked, d.totalDividends,
          ⟨d.totalUnclaimedDividends.amount + q.amount,
           d.totalUnclaimedDividends.sym⟩,
          d.totalDividendFrac⟩) ∧
    (∀ d, tblFind s.dividends PEOS_CODE = some d → 0 < d.totalStaked.amount →
      tblFind s'.dividends PEOS_CODE =
        some ⟨d.totalStaked,
          ⟨d.totalDividends.amount + q.amount, d.totalDividends.sym⟩,
          ⟨d.totalUnclaimedDividends.amount + q.amount,
           d.totalUnclaimedDividends.sym⟩,
          d.totalDividendFrac +
            (q.amount : ℚ) / (d.totalStaked.amount : ℚ)⟩) := by
  unfold distributeOp at h
  split at h
  · exact absurd h (by simp)
  rename_i s₁ htr
  obtain ⟨sea, -, -⟩ := transferOp_effect htr
  have hdiv : s₁.dividends = s.dividends := sea.2.2.2.2.2.1
  split at h
  · exact absurd h (by simp)
  split at h
  · exact absurd h (by simp)
  split at h
  · rename_i hnone
    split at h
    · exact absurd h (by simp)
    rename_i t ht
    obtain ⟨-, ht2⟩ := tblEmplace_ok ht
    subst ht2
    injection h with h
    subst h
    rw [hdiv] at hnone
    refine ⟨?_, ?_, ?_⟩
    · intro _
      dsimp only
      rw [tblFind, if_pos rfl]
    · intro d hd
      rw [hd] at hnone
      cases hnone
    · intro d hd
      rw [hd] at hnone
      cases hnone
  · rename_i d₁ hsome
    rw [hdiv] at hsome
    split at h
    · exact absurd h (by simp)
    rename_i unc hunc
    obtain ⟨-, huncv⟩ := addA_ok hunc
    subst huncv
    split at h
    · rename_i hpos
      split at h
      · exact absurd h (by simp)
      rename_i td htd
      obtain ⟨-, htdv⟩ := addA_ok htd
      subst htdv
      injection h with h
      subst h
      refine ⟨?_, ?_, ?_⟩
      · intro hnone
        rw [hsome] at hnone
        cases hnone
      · intro d hd hle
        rw [hsome] at hd
        injection hd with hd
        subst hd
        omega
      · intro d hd _
        rw [hsome] at hd
        injection hd with hd
        subst hd
        dsimp only
        rw [tblFind_modify_self, hdiv, hsome]
        rfl
    · rename_i hnpos
      injection h with h
      subst h
      refine ⟨?_, ?_, ?_⟩
      · intro hnone
        rw [hsome] at hnone
        cases hnone
      · intro d hd _
        rw [hsome] at hd
        injection hd with hd
        subst hd
        dsimp only
        rw [tblFind_modify_self, hdiv, hsome]
        rfl
      · intro d hd hpos
        rw [hsome] at hd
        injection hd with hd
        subst hd
        omega

set_option maxRecDepth 4000 in
/-- C5 instantiated on `sD` (0.0100 PEOS staked in total, fresh dividends
row): the full branch adds 0.1000 PEOS to both pools and raises the
accumulator from 1 to 11. -/
theorem C5_distribute_witness :
    tblFind sD'.dividends PEOS_CODE =
      some ⟨⟨100, PEOS_SYMBOL⟩, ⟨1000, PEOS_SYMBOL⟩, ⟨1000, PEOS_SYMBOL⟩, 11⟩ := by
  have h := C5_distribute_effect
    (show distributeOp envT 5 qD sD = .ok sD' from rfl)
  have h3 := h.2.2 ⟨⟨100, PEOS_SYMBOL⟩, ⟨0, PEOS_SYMBOL⟩, ⟨0, PEOS_SYMBOL⟩, 1⟩
    rfl (by decide)
  exact h3.trans (by decide)

/-- C6: issuing to a privileged vesting-capped account beyond its ceiling
at call time fails with `BudgetExceeded` (all state of the attempt,
including the vesting-record update made before the check, is discarded
with the error). -/
theorem C6_vesting_ceiling {env : Env} {dst : Name} {q : Asset}
    {memo : String} {s s₁ s₂ : State}
    (hcore : issueCore env dst q memo s = .ok s₁)
    (hupd : vestingUpdate dst q s₁ = .ok s₂)
    (hpriv : isPrivileged dst = true)
    (hover : vestClaimable env.now dst < vestingClaimed dst s₁ + q.amount) :
    issueOp env dst q memo s = .error .BudgetExceeded := by
  simp only [issueOp, hcore]
  unfold validate_peos_team_vesting
  simp only [hupd]
  unfold vestClaimable at hover
  by_cases h1 : dst = PEOS_MARKETING_ACCOUNT
  · rw [if_pos h1] at hover ⊢
    rw [if_neg (by omega)]
  · rw [if_neg h1] at hover ⊢
    by_cases h2 : dst = PEOS_TEAMFUND_ACCOUNT
    · rw [if_pos h2] at hover ⊢
      rw [if_neg (by omega)]
    · rw [if_neg h2] at hover ⊢
      by_cases h3 : dst = PEOS_CONTRACT_ACCOUNT
      · rw [if_pos h3] at hover ⊢
        rw [if_neg (by omega)]
      · unfold isPrivileged at hpriv
        simp only [Bool.or_eq_true, beq_iff_eq] at hpriv
        rcases hpriv with (h | h) | h
        · exact absurd h h1
        · exact absurd h h2
        · exact absurd h h3

/-- C6 instantiated: the marketing account tries to issue 60,000,000 PEOS
against its 50,000,000 cap and the whole `issue` fails with
`BudgetExceeded`, although everything up to the vesting check succeeds. -/
theorem C6_vesting_ceiling_witness :
    issueOp envT 2 qC6 "" s6 = .error .BudgetExceeded :=
  C6_vesting_ceiling (show issueCore envT 2 qC6 "" s6 = .ok s6a from rfl)
    (show vestingUpdate 2 qC6 s6a = .ok s6b from rfl) (by decide) (by decide)

/-- C7 refuted as worded: account `5` holds 100.0000 PEOS, stakes 40.0000
and immediately unstakes 40.0000 with no distribution in between. Both
calls succeed, a 40.0000 refund request is left — but the transferable
balance is 60.0000, not the pre-stake 100.0000: `unstake` only schedules
the deferred refund and pays nothing back. -/
theorem C7_balance_not_restored_cex :
    stakeOp envT 5 q4 sC7 = .ok sC7a ∧
    unstakeOp envT 5 q4 sC7a = .ok sC7b ∧
    balOf sC7 5 PEOS_CODE = 1000000 ∧
    balOf sC7b 5 PEOS_CODE = 600000 ∧
    tblFind sC7b.refunds 5 = some ⟨1600000000, q4⟩ :=
  ⟨rfl, rfl, rfl, rfl, rfl⟩

/-- C7 (amended) instantiated on the concrete round trip from `sC7`. -/
theorem C7_roundtrip_witness :
    balOf sC7b 5 PEOS_CODE = balOf sC7 5 PEOS_CODE - q4.amount ∧
    tblFind sC7b.refunds 5 = some ⟨envT.now, q4⟩ :=
  C7_stake_unstake_roundtrip (show q4.sym = PEOS_SYMBOL from rfl)
    (show tblFind sC7.stakes (5, PEOS_CODE) = none from rfl)
    (show tblFind sC7.refunds 5 = none from rfl)
    (show stakeOp envT 5 q4 sC7 = .ok sC7a from rfl)
    (show unstakeOp envT 5 q4 sC7a = .ok sC7b from rfl)

end RatEval

/-- C8 refuted as worded: for a generic (unprivileged) issuer such as
account `5`, the scenario already fails at the first issue — the final
vesting validation of `issue` rejects every account outside the three
privileged ones with `IssuanceClosed`, so no issue by that issuer can ever
succeed. -/
theorem C8_nonprivileged_issuer_cex :
    createOp 5 ⟨10000000, SYM_SYMBOL⟩ initState = .ok sE1 ∧
    issueOp envT 5 ⟨1000000, SYM_SYMBOL⟩ "" sE1 = .error .IssuanceClosed :=
  ⟨rfl, rfl⟩

/-- C8 (amended): with a privileged issuer (the marketing account), the
scenario holds: `create(marketing, 1000.0000 SYM)` then
`issue(marketing, 100.0000 SYM, "")` succeeds leaving the issuer balance
and the supply at 100.0000, and a further `issue(marketing, 950.0000 SYM,
"")` fails with `SupplyExceeded`. -/
theorem C8_issue_scenario_privileged :
    createOp PEOS_MARKETING_ACCOUNT ⟨10000000, SYM_SYMBOL⟩ initState = .ok sM1 ∧
    issueOp envT PEOS_MARKETING_ACCOUNT ⟨1000000, SYM_SYMBOL⟩ "" sM1 = .ok sM2 ∧
    balOf sM2 PEOS_MARKETING_ACCOUNT SYM_SYMBOL.code = 1000000 ∧
    (tblFind sM2.stats SYM_SYMBOL.code).map (fun st => st.supply.amount) =
      some 1000000 ∧
    issueOp envT PEOS_MARKETING_ACCOUNT ⟨9500000, SYM_SYMBOL⟩ "" sM2 =
      .error .SupplyExceeded :=
  ⟨rfl, rfl, rfl, rfl, rfl⟩

/-- C2: presenting a note id twice in one `transferutxo` call (the prefix
up to the first use succeeding) fails the whole call with `UnknownNote`;
after a successful call every one of its input notes is gone, and however
many further successful actions run, the input loop of a later call fails
with `UnknownNote` as soon as it reaches that id again — a note is spent
at most once. -/
theorem C2_no_double_spend :
    (∀ (env : Env) (payer : Name) (outputs : List Output) (l₁ : List Input)
      (i : Input) (l₂ : List Input) (memo : String) (s s₁ : State) (acc₁ : Asset),
      keysNodup s.utxos → memo.length ≤ 256 →
      i.id ∈ l₁.map Input.id →
      processInputs env outputs l₁ s ⟨0, PEOS_SYMBOL⟩ = .ok (s₁, acc₁) →
      transferutxoOp env payer (l₁ ++ i :: l₂) outputs memo s =
        .error .UnknownNote) ∧
    (∀ (env₁ : Env) (payer₁ : Name) (ins₁ : List Input) (outs₁ : List Output)
      (m₁ : String) (s s' : State),
      keysNodup s.utxos →
      (∀ p ∈ s.utxos, p.1 < counterVal s.utxoGlobal) →
      transferutxoOp env₁ payer₁ ins₁ outs₁ m₁ s = .ok s' →
      ∀ i ∈ ins₁, tblFind s'.utxos i.id = none ∧
      ∀ t, Steps s' t →
      ∀ (env₂ : Env) (outs₂ : List Output) (l₁ : List Input) (i₂ : Input)
        (l₂ : List Input) (acc : Asset) (t₁ : State) (a₁ : Asset),
        i₂.id = i.id →
        processInputs env₂ outs₂ l₁ t acc = .ok (t₁, a₁) →
        processInputs env₂ outs₂ (l₁ ++ i₂ :: l₂) t acc =
          .error .UnknownNote) := by
  constructor
  · intro env payer outputs l₁ i l₂ memo s s₁ acc₁ hnd hm hmem hok
    unfold transferutxoOp
    rw [if_neg (by omega)]
    simp only [processInputs_dup hnd hmem hok]
  · intro env₁ payer₁ ins₁ outs₁ m₁ s s' hnd hlt h1 i hi
    have hnone := transferutxo_spends hnd hlt h1 i hi
    refine ⟨hnone, ?_⟩
    intro t hst env₂ outs₂ l₁ i₂ l₂ acc t₁ a₁ hid h2
    obtain ⟨hcmono, -⟩ := transferutxoOp_utxoStep h1
    unfold transferutxoOp at h1
    split at h1
    · exact absurd h1 (by simp)
    split at h1
    · exact absurd h1 (by simp)
    rename_i sm insum hpi1
    obtain ⟨u, hu⟩ := processInputs_found hpi1 i hi
    have hi_lt : i.id < counterVal s'.utxoGlobal :=
      lt_of_lt_of_le (hlt (i.id, u) hu) hcmono
    obtain ⟨-, hnone_t⟩ := utxo_spent_persists hi_lt hnone hst
    rw [processInputs_append h2]
    have hfind : tblFind t₁.utxos i₂.id = none := by
      rw [hid]
      obtain ⟨-, -, -, -, -, -, -, -, hmem₁⟩ := processInputs_effect h2
      rw [tblFind_eq_none] at hnone_t ⊢
      intro hk
      rcases List.mem_map.mp hk with ⟨p, hp, hpk⟩
      exact hnone_t (List.mem_map.mpr ⟨p, hmem₁ p hp, hpk⟩)
    simp [processInputs, hfind]

/-- C2 instantiated on `sW`: spending note 0 twice in one call fails with
`UnknownNote`, and after the successful spend of note 0 a fresh attempt to
use id 0 (with any signature) fails with `UnknownNote`. -/
theorem C2_no_double_spend_witness :
    transferutxoOp envT 5 [⟨0, 0⟩, ⟨0, 1⟩] outsW "" sW = .error .UnknownNote ∧
    processInputs envT [] [⟨0, 3⟩] sW₃ ⟨0, PEOS_SYMBOL⟩ = .error .UnknownNote := by
  constructor
  · exact C2_no_double_spend.1 envT 5 outsW [⟨0, 0⟩] ⟨0, 1⟩ [] "" sW sW₁
      ⟨100, PEOS_SYMBOL⟩ (show keysNodup sW.utxos from by unfold keysNodup; decide)
      (by decide) (by decide)
      (show processInputs envT outsW [⟨0, 0⟩] sW ⟨0, PEOS_SYMBOL⟩ =
        .ok (sW₁, ⟨100, PEOS_SYMBOL⟩) from rfl)
  · exact (C2_no_double_spend.2 envT 5 insW outsW "" sW sW₃
      (show keysNodup sW.utxos from by unfold keysNodup; decide) (by decide)
      (show transferutxoOp envT 5 insW outsW "" sW = .ok sW₃ from rfl)
      ⟨0, 0⟩ (by decide)).2 sW₃ Relation.ReflTransGen.refl envT [] [] ⟨0, 3⟩ []
      ⟨0, PEOS_SYMBOL⟩ sW₃ ⟨0, PEOS_SYMBOL⟩ rfl rfl

/-- C3: with the memo in bounds and both loops succeeding, `transferutxo`
fails with `InputsInsufficient` whenever the input sum is below the output
sum; a successful call satisfies `output sum ≤ input sum`, credits exactly
the difference to `payer` (on top of whatever the output loop already
gave it), deletes every input note, keeps every pre-existing note that is
not an input, and every note it holds that is not pre-existing carries an
id distinct from every pre-existing note's id. -/
theorem C3_utxo_conservation {env : Env} {payer : Name} {inputs : List Input}
    {outputs : List Output} {memo : String} {s s₁ s₂ : State}
    {inputSum outputSum : Asset}
    (hmemo : memo.length ≤ 256)
    (hnd : keysNodup s.utxos)
    (hlt : ∀ p ∈ s.utxos, p.1 < counterVal s.utxoGlobal)
    (hpi : processInputs env outputs inputs s ⟨0, PEOS_SYMBOL⟩ = .ok (s₁, inputSum))
    (hpo : processOutputs env payer memo outputs s₁ ⟨0, PEOS_SYMBOL⟩ =
      .ok (s₂, outputSum)) :
    (inputSum.amount < outputSum.amount →
      transferutxoOp env payer inputs outputs memo s =
        .error .InputsInsufficient) ∧
    (∀ s', transferutxoOp env payer inputs outputs memo s = .ok s' →
      outputSum.amount ≤ inputSum.amount ∧
      balOf s' payer PEOS_CODE =
        balOf s₂ payer PEOS_CODE + (inputSum.amount - outputSum.amount) ∧
      (∀ i ∈ inputs, tblFind s'.utxos i.id = none) ∧
      (∀ p ∈ s.utxos, p.1 ∉ inputs.map Input.id → p ∈ s'.utxos) ∧
      (∀ p ∈ s'.utxos, p ∉ s.utxos → p.1 ∉ s.utxos.map Prod.fst)) := by
  have hsymIn : inputSum.sym = PEOS_SYMBOL := processInputs_sumSym hpi
  have hsymOut : outputSum.sym = PEOS_SYMBOL := processOutputs_sumSym hpo
  constructor
  · intro hins
    unfold transferutxoOp
    rw [if_neg (by omega)]
    simp only [hpi, hpo]
    rw [if_neg (by rw [hsymIn, hsymOut]; exact fun hk => hk rfl), if_pos hins]
  · intro s' hok
    have hok0 := hok
    obtain ⟨-, hfreshmem⟩ := transferutxoOp_utxoStep hok0
    unfold transferutxoOp at hok
    rw [if_neg (by omega)] at hok
    simp only [hpi, hpo] at hok
    split at hok
    · exact absurd hok (by simp)
    split at hok
    · exact absurd hok (by simp)
    rename_i hge
    split at hok
    · exact absurd hok (by simp)
    rename_i fees hfees
    obtain ⟨-, hfv⟩ := subA_ok hfees
    subst hfv
    have hge' : outputSum.amount ≤ inputSum.amount := by omega
    have hdel : ∀ i ∈ inputs, tblFind s'.utxos i.id = none :=
      transferutxo_spends hnd hlt hok0
    have hkeep0 : ∀ p ∈ s.utxos, p.1 ∉ inputs.map Input.id → p ∈ s₂.utxos :=
      fun p hp hpid =>
        processOutputs_keeps hpo p (processInputs_keeps hpi p hp hpid)
    have hfresh : ∀ p ∈ s'.utxos, p ∉ s.utxos → p.1 ∉ s.utxos.map Prod.fst := by
      intro p hp hnotold hk
      rcases hfreshmem p hp with hold | ⟨hge2, -⟩
      · exact hnotold hold
      · rcases List.mem_map.mp hk with ⟨r, hr, hrk⟩
        have := hlt r hr
        rw [hrk] at this
        omega
    split at hok
    · rename_i hfpos
      obtain ⟨-, hbal, -, -⟩ := transferOp_balances hok
      obtain ⟨hu, -⟩ := transferOp_utxoFrame hok
      refine ⟨hge', ?_, hdel, ?_, hfresh⟩
      · rw [hsymIn] at hbal
        exact hbal
      · intro p hp hpid
        rw [hu]
        exact hkeep0 p hp hpid
    · injection hok with hok
      subst hok
      rename_i hfnpos
      refine ⟨hge', ?_, hdel, hkeep0, hfresh⟩
      have hz : inputSum.amount - outputSum.amount = 0 := by
        dsimp only at hfnpos
        omega
      rw [hz]
      omega

/-- C3 instantiated on `sW`: the successful spend of the 0.0100 PEOS note
into a 0.0060 output credits the 0.0040 fee to the payer and deletes note
0; and the same call with a 0.0200 output demanded fails with
`InputsInsufficient`. -/
theorem C3_utxo_conservation_witness :
    (balOf sW₃ 5 PEOS_CODE = balOf sW₂ 5 PEOS_CODE + 40 ∧
      tblFind sW₃.utxos 0 = none) ∧
    transferutxoOp envT 5 insW outsWbig "" sW = .error .InputsInsufficient := by
  constructor
  · have h := C3_utxo_conservation (by decide)
      (show keysNodup sW.utxos from by unfold keysNodup; decide) (by decide)
      (show processInputs envT outsW insW sW ⟨0, PEOS_SYMBOL⟩ =
        .ok (sW₁, ⟨100, PEOS_SYMBOL⟩) from rfl)
      (show processOutputs envT 5 "" outsW sW₁ ⟨0, PEOS_SYMBOL⟩ =
        .ok (sW₂, ⟨60, PEOS_SYMBOL⟩) from rfl)
    obtain ⟨-, hbal, hdel, -, -⟩ :=
      h.2 sW₃ (show transferutxoOp envT 5 insW outsW "" sW = .ok sW₃ from rfl)
    exact ⟨hbal, hdel ⟨0, 0⟩ (by decide)⟩
  · have h := C3_utxo_conservation (by decide)
      (show keysNodup sW.utxos from by unfold keysNodup; decide) (by decide)
      (show processInputs envT outsWbig insW sW ⟨0, PEOS_SYMBOL⟩ =
        .ok (sWbig, ⟨100, PEOS_SYMBOL⟩) from rfl)
      (show processOutputs envT 5 "" outsWbig sWbig ⟨0, PEOS_SYMBOL⟩ =
        .ok (sWbig₂, ⟨200, PEOS_SYMBOL⟩) from rfl)
    exact h.1 (by decide)

end Token
